import Mathlib

/-!
Shallow embedding of the grid-expansion / namelist-codec core of the `stevma`
repository (src/stevma/meshgrid.py, src/stevma/io/io.py and
src/src/stevma/mesa/__init__.py), together with proofs settling the frozen
claims about it.

Modelling conventions:
* Python dictionaries are insertion-ordered association lists; assignment to an
  existing key replaces the value in place, assignment to a fresh key appends.
* Python scalar values (int, float, bool, str, complex) are the inductive
  `PyScalar`; Python floats are modelled as exact decimal rationals `Rat`
  (binary floating point, `inf` and `nan` are outside the model, as is PEP 515
  underscore grouping in numeric literals).
* Fallible code returns `Except String _`; the message names the Python
  exception that the corresponding line of source raises.
* Numpy's dtype promotion (which coerces a heterogeneous meshgrid to a common
  dtype) is not modelled; meshgrid theorems therefore carry a homogeneity
  hypothesis `GridSpec.homogeneous` keeping the model faithful on the inputs
  they speak about.
-/

set_option linter.unusedSectionVars false

deriving instance DecidableEq for Except

namespace Stevma

/-! ### Python-style insertion-ordered dictionaries -/

/-- A Python `dict` as an insertion-ordered association list. -/
abbrev PyDict (κ : Type) (α : Type) : Type := List (κ × α)

section PyDictOps

variable {κ α : Type} [DecidableEq κ]

/-- Python `d.get(k)` / `d[k]` lookup (first matching key). -/
def dget (d : PyDict κ α) (k : κ) : Option α :=
  match d with
  | [] => none
  | (k', v) :: rest => if k' = k then some v else dget rest k

/-- Python `k in d`. -/
def dhasKey (d : PyDict κ α) (k : κ) : Bool :=
  match d with
  | [] => false
  | (k', _) :: rest => if k' = k then true else dhasKey rest k

/-- Python `d[k] = v`: replace in place if the key exists, else append. -/
def dset (d : PyDict κ α) (k : κ) (v : α) : PyDict κ α :=
  match d with
  | [] => [(k, v)]
  | (k', v') :: rest => if k' = k then (k', v) :: rest else (k', v') :: dset rest k v

/-- Python `d.pop(k)` (the removal part; the caller checks presence). -/
def dremove (d : PyDict κ α) (k : κ) : PyDict κ α :=
  match d with
  | [] => []
  | (k', v') :: rest => if k' = k then rest else (k', v') :: dremove rest k

/-- The keys of the dictionary in insertion order. -/
def dkeys (d : PyDict κ α) : List κ := d.map (·.1)

end PyDictOps

/-! ### Python scalar and composite values -/

/-- A Python scalar value as it occurs in namelist/grid processing.  Floats are
modelled as exact decimal rationals. -/
inductive PyScalar : Type where
  | int (n : Int)
  | real (q : Rat)
  | bool (b : Bool)
  | str (s : String)
  | complex (re im : Rat)
  deriving DecidableEq, Repr

/-- A Python value held in a namelist/grid dictionary: a scalar, a list of
scalars, or the parser's indexed-array dictionary `{"_is_list": True, i: v}`
(modelled by its integer-keyed entries in insertion order). -/
inductive PyVal : Type where
  | scalar (s : PyScalar)
  | list (xs : List PyScalar)
  | ilist (entries : List (Int × PyScalar))
  deriving DecidableEq, Repr

/-- Python `==` on scalars: numeric kinds (`int`, `float`, `bool`, `complex`)
compare by value across kinds (`True == 1`, `1 == 1.0`); strings only equal
strings. -/
def PyScalar.pyEq : PyScalar → PyScalar → Bool
  | .str s, .str t => s = t
  | .str _, _ => false
  | _, .str _ => false
  | a, b =>
    let toC : PyScalar → Rat × Rat
      | .int n => ((n : Rat), 0)
      | .real q => (q, 0)
      | .bool b => (if b then 1 else 0, 0)
      | .complex re im => (re, im)
      | .str _ => (0, 0)
    toC a = toC b

/-- Python `==` on the values we model.  List/ilist equality is elementwise
resp. key-set based (Python `dict` equality ignores insertion order). -/
def PyVal.pyEq : PyVal → PyVal → Bool
  | .scalar a, .scalar b => a.pyEq b
  | .list xs, .list ys =>
      xs.length = ys.length && (List.zip xs ys).all fun (a, b) => a.pyEq b
  | .ilist a, .ilist b =>
      (a.all fun (k, v) => match dget b k with
        | some w => v.pyEq w
        | none => false) &&
      (b.all fun (k, v) => match dget a k with
        | some w => v.pyEq w
        | none => false)
  | _, _ => false

/-! ### Decimal digit rendering and parsing

Fueled structural implementations so that concrete witnesses reduce in the
kernel; `natToChars` models Python's decimal rendering of a non-negative
integer. -/

/-- One decimal digit to its character. -/
def digitChar (n : Nat) : Char := Char.ofNat (48 + n)

/-- Auxiliary fueled decimal rendering (most significant digit first). -/
def natToCharsAux : Nat → Nat → List Char
  | 0, _ => []
  | fuel + 1, n =>
    if n < 10 then [digitChar n]
    else natToCharsAux fuel (n / 10) ++ [digitChar (n % 10)]

/-- Decimal rendering of a natural number, as Python's `str`/f-string does. -/
def natToChars (n : Nat) : List Char := natToCharsAux (n + 1) n

/-- Is this an ASCII decimal digit? -/
def isDigitChar (c : Char) : Bool := ('0' ≤ c) && (c ≤ '9')

/-- Value of one decimal digit character. -/
def digitVal (c : Char) : Nat := c.toNat - 48

/-- Fold a digit string (assumed all digits) into its value. -/
def digitsToNat (cs : List Char) : Nat :=
  cs.foldl (fun acc c => acc * 10 + digitVal c) 0

/-! ### Python `str` helpers over `List Char` -/

/-- Python whitespace (the characters `str.strip`/`str.split` treat as space). -/
def isPySpace (c : Char) : Bool :=
  c = ' ' || c = '\t' || c = '\n' || c = '\r' || c = '\x0b' || c = '\x0c'

/-- Python `s.strip()`. -/
def pstrip (s : List Char) : List Char :=
  ((s.dropWhile isPySpace).reverse.dropWhile isPySpace).reverse

/-- Python `s.split(sep)` for a one-character separator (keeps empty pieces). -/
def splitChar (sep : Char) (s : List Char) : List (List Char) :=
  match s with
  | [] => [[]]
  | c :: rest =>
    if c = sep then [] :: splitChar sep rest
    else
      match splitChar sep rest with
      | [] => [[c]]
      | hd :: tl => (c :: hd) :: tl

/-- Python `sep.join(pieces)` for a one-character separator. -/
def joinChar (sep : Char) : List (List Char) → List Char
  | [] => []
  | [l] => l
  | l :: ls => l ++ sep :: joinChar sep ls

/-- Python `s.count(c)` for a single character. -/
def countChar (c : Char) (s : List Char) : Nat := (s.filter (· = c)).length

/-- Python `s.replace(a, b)` for one-character strings. -/
def replaceChar (a b : Char) (s : List Char) : List Char :=
  s.map fun c => if c = a then b else c

/-- Python `s.split()` (split on whitespace runs, dropping empty pieces). -/
def splitWsAux : List Char → List Char → List (List Char)
  | [], [] => []
  | [], acc => [acc.reverse]
  | c :: rest, acc =>
    if isPySpace c then
      if acc = [] then splitWsAux rest [] else acc.reverse :: splitWsAux rest []
    else splitWsAux rest (c :: acc)

def splitWs (s : List Char) : List (List Char) := splitWsAux s []

/-- Python `c in s` (single-character membership). -/
def containsChar (s : List Char) (c : Char) : Bool := s.contains c

/-! ### Python numeric literal parsers

Faithful models of CPython's `int(str)` and `float(str)` on already-stripped
tokens, minus binary-float limits, `inf`/`nan` and PEP 515 underscores. -/

/-- Nonempty all-digit strings. -/
def parseDigits (cs : List Char) : Option Nat :=
  if cs ≠ [] ∧ cs.all isDigitChar then some (digitsToNat cs) else none

/-- CPython `int(value)` on a stripped token (optional sign, decimal digits). -/
def parsePyInt (s : List Char) : Option Int :=
  match s with
  | '+' :: rest => (parseDigits rest).map Int.ofNat
  | '-' :: rest => (parseDigits rest).map fun n => -(n : Int)
  | _ => (parseDigits s).map Int.ofNat

/-- `10 ^ e` as an exact rational. -/
def qpow10 : Int → Rat
  | .ofNat n => ((10 ^ n : Nat) : Rat)
  | .negSucc n => 1 / ((10 ^ (n + 1) : Nat) : Rat)

/-- Optional exponent suffix `([eE][+-]?digits)?`; returns the exponent. -/
def parseExpPart : List Char → Option Int
  | [] => some 0
  | c :: rest =>
    if c = 'e' ∨ c = 'E' then
      match rest with
      | '+' :: ds => (parseDigits ds).map Int.ofNat
      | '-' :: ds => (parseDigits ds).map fun n => -(n : Int)
      | ds => (parseDigits ds).map Int.ofNat
    else none

/-- Unsigned float literal: `digits [. digits] [exp]` or `. digits [exp]`. -/
def parseUnsignedFloat (s : List Char) : Option Rat :=
  let ip := s.takeWhile isDigitChar
  let rest1 := s.drop ip.length
  match rest1 with
  | '.' :: rest2 =>
    let fp := rest2.takeWhile isDigitChar
    let rest3 := rest2.drop fp.length
    if ip = [] ∧ fp = [] then none
    else
      (parseExpPart rest3).map fun e =>
        ((digitsToNat (ip ++ fp) : Rat) / ((10 ^ fp.length : Nat) : Rat)) * qpow10 e
  | _ =>
    if ip = [] then none
    else (parseExpPart rest1).map fun e => (digitsToNat ip : Rat) * qpow10 e

/-- CPython `float(value)` on a stripped token. -/
def parsePyFloat (s : List Char) : Option Rat :=
  match s with
  | '+' :: rest => parseUnsignedFloat rest
  | '-' :: rest => (parseUnsignedFloat rest).map Neg.neg
  | _ => parseUnsignedFloat s

/-! ### The complex-pair regex `^\((\d+.?\d*),(\d+.?\d*)\)$`

The `.` in the source pattern is unescaped and matches any character; we model
the backtracking engine's candidate order (each greedy piece longest first,
rightmost piece backtracks first) so captures agree with `re.findall`. -/

/-- Decompositions `s = p ++ r` with `p` a prefix of the leading digit run,
longest first (the greedy order for `\d*`). -/
def digitSplitsDesc (s : List Char) : List (List Char × List Char) :=
  let run := s.takeWhile isDigitChar
  let rest := s.drop run.length
  ((List.range (run.length + 1)).reverse).map fun i => (run.take i, run.drop i ++ rest)

/-- Candidate matches of `\d+.?\d*` on a prefix of `s`, in engine order;
returns (matched-prefix, remainder) pairs. -/
def numTokSplits (s : List Char) : List (List Char × List Char) :=
  ((digitSplitsDesc s).filter fun p => p.1 ≠ []).flatMap fun (p1, r1) =>
    let dotOpts : List (List Char × List Char) :=
      match r1 with
      | c :: r => [([c], r), ([], r1)]
      | [] => [([], [])]
    dotOpts.flatMap fun (dc, r2) =>
      (digitSplitsDesc r2).map fun (p3, r3) => (p1 ++ dc ++ p3, r3)

/-- `re.findall(complex_re, value)` restricted to the anchored pattern: at most
one match; returns the two captured groups. -/
def complexFindall (v : List Char) : Option (List Char × List Char) :=
  match v with
  | '(' :: rest =>
    (numTokSplits rest).findSome? fun (a, r1) =>
      match r1 with
      | ',' :: r2 =>
        (numTokSplits r2).findSome? fun (b, r3) =>
          if r3 = [')'] then some (a, b) else none
      | _ => none
  | _ => none

/-- A value that starts and ends with quote character `c` and contains exactly
two of them (the source's escaped-string test). -/
def isQuotedBy (c : Char) (v : List Char) : Bool :=
  v.head? = some c && v.getLast? = some c && countChar c v = 2

/-! ### `parse_fortran_value_to_python` (src/stevma/io/io.py lines 92-130) -/

/-- Errors of the scalar literal parser: the distinguished
`NoSingleValueFoundException` versus any other (fatal) Python exception. -/
inductive PErr : Type where
  | noSingleValue (token : List Char)
  | fatal (msg : String)
  deriving DecidableEq, Repr

/-- `parse_fortran_value_to_python`: try int, float (with `d`→`E`), complex
pair, boolean tokens, quoted string; otherwise raise the distinguished
`NoSingleValueFoundException`. -/
def parseFortranValueToPython (value : List Char) : Except PErr PyScalar :=
  match parsePyInt value with
  | some n => .ok (.int n)
  | none =>
    match parsePyFloat (replaceChar 'd' 'E' value) with
    | some q => .ok (.real q)
    | none =>
      match complexFindall value with
      | some (a, b) =>
        -- `complex(float(a), float(b))`: a capture that `float` rejects raises
        -- an ordinary ValueError, not the distinguished exception
        match parsePyFloat a, parsePyFloat b with
        | some x, some y => .ok (.complex x y)
        | _, _ => .error (.fatal "ValueError: could not convert string to float")
      | none =>
        if value = ".true.".data ∨ value = "T".data then .ok (.bool true)
        else if value = ".false.".data ∨ value = "F".data then .ok (.bool false)
        else if isQuotedBy '\'' value then .ok (.str (String.mk ((value.drop 1).dropLast)))
        else if isQuotedBy '"' value then .ok (.str (String.mk ((value.drop 1).dropLast)))
        else .error (.noSingleValue value)

/-! ### Decimal float formatting (`f"{value:.10e}"`, `"{:.5f}"`)

Python formats the binary double nearest to the value; we format the exact
decimal rational, which agrees on every value exactly representable at the
requested precision. -/

/-- Round to the nearest integer, ties to even (CPython's float formatting). -/
def rhe (q : Rat) : Int :=
  let f := q.floor
  let frac := q - (f : Rat)
  if frac < 1 / 2 then f
  else if 1 / 2 < frac then f + 1
  else if f % 2 = 0 then f else f + 1

/-- Decimal exponent of `q > 0`: the `e` with `10^e ≤ q < 10^(e+1)`. -/
def decExp (q : Rat) : Int :=
  let p := q.num.toNat
  let r := q.den
  let e0 : Int := (natToChars p).length - (natToChars r).length
  if q < qpow10 e0 then e0 - 1 else e0

/-- Exponent part of scientific notation: sign plus at least two digits. -/
def expChars (e : Int) : List Char :=
  let sign := if e < 0 then '-' else '+'
  let ds := natToChars e.natAbs
  sign :: (if ds.length < 2 then '0' :: ds else ds)

/-- `f"{q:.10e}"` for `q > 0`. -/
def formatE10core (q : Rat) : List Char :=
  let e := decExp q
  let n := (rhe (q * qpow10 (10 - e))).toNat
  let ne : Nat × Int := if 10 ^ 11 ≤ n then (10 ^ 10, e + 1) else (n, e)
  let ds := natToChars ne.1
  ds.take 1 ++ '.' :: ds.drop 1 ++ 'e' :: expChars ne.2

/-- `f"{q:.10e}"`. -/
def formatE10 (q : Rat) : List Char :=
  if q = 0 then "0.0000000000e+00".data
  else if q < 0 then '-' :: formatE10core (-q)
  else formatE10core q

/-- Left-pad a decimal rendering with zeros to the given width. -/
def natToCharsPad (width n : Nat) : List Char :=
  let ds := natToChars n
  List.replicate (width - ds.length) '0' ++ ds

/-- `"{:.5f}".format q`. -/
def formatF5 (q : Rat) : List Char :=
  let n := (rhe ((if q < 0 then -q else q) * ((10 ^ 5 : Nat) : Rat))).toNat
  (if q < 0 then ['-'] else []) ++ natToChars (n / 10 ^ 5) ++ '.' :: natToCharsPad 5 (n % 10 ^ 5)

/-- Python's decimal rendering of an integer (`f"{n:d}"`). -/
def renderInt (n : Int) : List Char :=
  if n < 0 then '-' :: natToChars (-n).toNat else natToChars n.toNat

/-! ### `parse_python_value_to_fortran` (src/stevma/io/io.py lines 133-162) -/

/-- `parse_python_value_to_fortran`: bool, int, float, str, complex in that
`isinstance` order; anything else (a Python `list` or `dict`) raises. -/
def parsePythonValueToFortran : PyVal → Except String (List Char)
  | .scalar (.bool b) => .ok (if b then ".true.".data else ".false.".data)
  | .scalar (.int n) => .ok (renderInt n)
  | .scalar (.real q) => .ok (replaceChar 'e' 'd' (formatE10 q))
  | .scalar (.str s) => .ok ('\'' :: s.data ++ ['\''])
  | .scalar (.complex re im) => .ok ('(' :: formatF5 re ++ ',' :: formatF5 im ++ [')'])
  | _ => .error "Exception: Variable type not understood"

/-! ### `dump_dict_to_namelist_string` (src/stevma/io/io.py lines 294-346) -/

/-- The lines contributed by one `(key, value)` entry of the data dictionary:
an inline joined line or one 1-based indexed line per element for a list, else
a single `key = literal` line. -/
def entryLines (arrayInline : Bool) (key : String) (value : PyVal) :
    Except String (List (List Char)) :=
  match value with
  | .list xs =>
    if arrayInline then do
      -- `''.join(...)`: the rendered elements are concatenated with no separator
      let rendered ← xs.mapM fun v => parsePythonValueToFortran (.scalar v)
      pure ["   ".data ++ key.data ++ " = ".data ++ rendered.flatten]
    else do
      let rendered ← xs.mapM fun v => parsePythonValueToFortran (.scalar v)
      pure <| (rendered.enum).map fun (n, r) =>
        "   ".data ++ key.data ++ '(' :: natToChars (n + 1) ++ ") = ".data ++ r
  | v => do
    let r ← parsePythonValueToFortran v
    pure ["   ".data ++ key.data ++ " = ".data ++ r]

/-- `dump_dict_to_namelist_string`: serialize one namelist group. -/
def dumpDictToNamelistString (data : PyDict String PyVal) (namelist : String)
    (arrayInline : Bool) : Except String (List Char) :=
  if namelist = "" then .error "ValueError: namelist cannot be an empty string"
  else
    let openLine := '&' :: namelist.data
    let closeLine := "/ ! end of ".data ++ namelist.data ++ " namelist".data
    if data = [] then .ok (joinChar '\n' [openLine, closeLine] ++ ['\n'])
    else do
      let body ← data.mapM fun kv => entryLines arrayInline kv.1 kv.2
      pure (joinChar '\n' (openLine :: (body.flatten ++ [closeLine])) ++ ['\n'])

/-! ### `namelist_string_to_dict` (src/stevma/io/io.py lines 165-291) -/

/-- Split a string at the last occurrence of `ch`:
`s = a ++ ch :: b` with `ch ∉ b`. -/
def splitLastChar (ch : Char) : List Char → Option (List Char × List Char)
  | [] => none
  | c :: rest =>
    match splitLastChar ch rest with
    | some (a, b) => some (c :: a, b)
    | none => if c = ch then some ([], rest) else none

/-- The group-block regex `re.findall(r"&([^&]+)/", text)`: after an `&`, the
greedy `[^&]+` runs to the last `/` inside the following `&`-free run (the
capture must be nonempty); scanning resumes after the consumed `/`. -/
def findBlocksAux : Nat → List Char → List (List Char)
  | 0, _ => []
  | fuel + 1, s =>
    match s with
    | [] => []
    | c :: rest =>
      if c = '&' then
        let run := rest.takeWhile (· ≠ '&')
        let after := rest.dropWhile (· ≠ '&')
        match splitLastChar '/' run with
        | some (cap, tl) =>
          if cap = [] then findBlocksAux fuel rest
          else cap :: findBlocksAux fuel (tl ++ after)
        | none => findBlocksAux fuel rest
      else findBlocksAux fuel rest

def findBlocks (s : List Char) : List (List Char) := findBlocksAux s.length s

/-- `\w` (ASCII word character). -/
def isWordChar (c : Char) : Bool := c.isAlphanum || c = '_'

/-- The array-key regex `re.findall(r"(\w+)\((\d+)\)", k)` as a left-to-right
scan; returns (name, digits) capture pairs. -/
def findArrayKeysAux : Nat → List Char → List (List Char × List Char)
  | 0, _ => []
  | fuel + 1, s =>
    match s with
    | [] => []
    | c :: rest =>
      if isWordChar c then
        let w := s.takeWhile isWordChar
        let r1 := s.dropWhile isWordChar
        match r1 with
        | '(' :: r2 =>
          let d := r2.takeWhile isDigitChar
          let r3 := r2.drop d.length
          if d ≠ [] then
            match r3 with
            | ')' :: r4 => (w, d) :: findArrayKeysAux fuel r4
            | _ => findArrayKeysAux fuel r1
          else findArrayKeysAux fuel r1
        | _ => findArrayKeysAux fuel r1
      else findArrayKeysAux fuel rest

def findArrayKeys (s : List Char) : List (List Char × List Char) :=
  findArrayKeysAux s.length s

/-- The quoted-string regex `re.findall(r"\'\s*\w[^']*\'", value)`. -/
def findQuotedStringsAux : Nat → List Char → List (List Char)
  | 0, _ => []
  | fuel + 1, s =>
    match s with
    | [] => []
    | c :: rest =>
      if c = '\'' then
        let sp := rest.takeWhile isPySpace
        match rest.dropWhile isPySpace with
        | c2 :: r2 =>
          if isWordChar c2 then
            let body := r2.takeWhile (· ≠ '\'')
            match r2.drop body.length with
            | '\'' :: r4 =>
              ('\'' :: sp ++ c2 :: body ++ ['\'']) :: findQuotedStringsAux fuel r4
            | _ => findQuotedStringsAux fuel rest
          else findQuotedStringsAux fuel rest
        | [] => findQuotedStringsAux fuel rest
      else findQuotedStringsAux fuel rest

def findQuotedStrings (s : List Char) : List (List Char) :=
  findQuotedStringsAux s.length s

/-- One indexed-or-scalar store into the group dictionary (lines 248-253 and
274-279): a scalar assignment sets the key; an indexed assignment creates the
`{"_is_list": True}` dictionary on first use and sets the integer key; an
indexed assignment into an existing non-dict value raises `TypeError`. -/
def assignParsed (group : PyDict String PyVal) (name : String) (idx : Option Int)
    (v : PyScalar) : Except PErr (PyDict String PyVal) :=
  match idx with
  | none => .ok (dset group name (.scalar v))
  | some i =>
    match dget group name with
    | none => .ok (dset group name (.ilist [(i, v)]))
    | some (.ilist entries) => .ok (dset group name (.ilist (dset entries i v)))
    | some _ => .error (.fatal "TypeError: indexed assignment into a non-dict value")

/-- The inline-array fallback (lines 255-279): split the token into entries
(whitespace/comma separated, or quoted-string matches when the quote count is
odd) and parse each; an entry failing the scalar parser propagates its error.
`enumerate` always supplies an index, so the `variable_index is None` branch of
the inner loop is dead code. -/
def inlineArrayFallback (group : PyDict String PyVal) (name : String)
    (value : List Char) : Except PErr (PyDict String PyVal) :=
  let entries :=
    if countChar '\'' value = 0 ∨ countChar '\'' value = 2 then
      if countChar '(' value ≠ 0 then splitWs value
      else splitWs (replaceChar ',' ' ' value)
    else (findQuotedStrings value).map pstrip
  entries.enum.foldlM
    (fun g (i, e) => do
      let v ← parseFortranValueToPython e
      assignParsed g name (some (i : Int)) v)
    group

/-- Process one `name = value` assignment (lines 245-279): try the scalar
literal parser; on the distinguished `NoSingleValueFoundException` fall back to
inline-array parsing; any other failure propagates. -/
def processAssignment (group : PyDict String PyVal) (name : String)
    (idx : Option Int) (value : List Char) : Except PErr (PyDict String PyVal) :=
  match parseFortranValueToPython value with
  | .ok v => assignParsed group name idx v
  | .error (.noSingleValue _) => inlineArrayFallback group name value
  | .error e => .error e

/-! The literal grammars of §4.1, as recognised by the source's parsers. -/

def matchesIntegerGrammar (v : List Char) : Prop := (parsePyInt v).isSome = true

def matchesFloatGrammar (v : List Char) : Prop :=
  (parsePyFloat (replaceChar 'd' 'E' v)).isSome = true

def matchesComplexPairGrammar (v : List Char) : Prop := (complexFindall v).isSome = true

def matchesBooleanGrammar (v : List Char) : Prop :=
  v = ".true.".data ∨ v = "T".data ∨ v = ".false.".data ∨ v = "F".data

def matchesQuotedStringGrammar (v : List Char) : Prop :=
  isQuotedBy '\'' v = true ∨ isQuotedBy '"' v = true

/-- Phase 1 of block parsing (lines 206-223): strip physical lines, drop blank
and comment lines, require an `=` split into exactly two parts, and append
continuation lines to a previous logical line ending in a comma. -/
def buildBlockLines (raw : List (List Char)) : Except PErr (List (List Char)) :=
  raw.foldlM
    (fun acc line => do
      let line := pstrip line
      if line = [] then pure acc
      else if line.head? = some '!' then pure acc
      else if (splitChar '=' line).length = 2 then pure (acc ++ [line])
      else
        match acc.getLast? with
        | none => .error (.fatal "IndexError: list index out of range")
        | some last =>
          if last.getLast? = some ',' then pure (acc.dropLast ++ [last ++ line])
          else .error (.fatal "ValueError: not enough values to unpack"))
    []

/-- Phase 2 of block parsing for one logical line (lines 225-279): strip a
trailing comma, cut an inline comment, split on `=`, resolve a 1-based array
index from the key, and run the assignment. -/
def processBlockLine (group : PyDict String PyVal) (line : List Char) :
    Except PErr (PyDict String PyVal) :=
  let line := if line.getLast? = some ',' then line.dropLast else line
  let line := if containsChar line '!' then pstrip (line.takeWhile (· ≠ '!')) else line
  match splitChar '=' line with
  | [k, v] =>
    let variableName := pstrip k
    let variableValue := pstrip v
    let nameIdx : String × Option Int :=
      match findArrayKeys k with
      | [(nm, digits)] => (String.mk nm, some ((digitsToNat digits : Int) - 1))
      | _ => (String.mk variableName, none)
    processAssignment group nameIdx.1 nameIdx.2 variableValue
  | _ => .error (.fatal "ValueError: not enough values to unpack")

/-- Parse one captured group block (lines 201-289): the first physical line is
the group name; the rest is parsed into the group dictionary; a variable named
like the group makes the counter logic (fresh `group_cnt`, so count `0`) rename
the group. -/
def processGroupBlock (groupBlock : List Char) :
    Except PErr (String × PyDict String PyVal) := do
  match splitChar '\n' groupBlock with
  | [] => .error (.fatal "IndexError: pop from empty list")
  | nameLine :: rest =>
    let groupName := String.mk (pstrip nameLine)
    let blockLines ← buildBlockLines rest
    let group ← blockLines.foldlM processBlockLine []
    let groupName := if dhasKey group groupName then groupName ++ "0" else groupName
    pure (groupName, group)

/-- Lines 191-199: drop comment lines, rejoin, and find the group blocks. -/
def groupBlocksOf (buffer : List Char) : List (List Char) :=
  findBlocks (joinChar '\n'
    ((splitChar '\n' buffer).filter fun line => ¬ ((pstrip line).head? = some '!')))

/-- `namelist_string_to_dict`: drop comment lines, locate the group blocks, and
parse them — except that the source's `return namelists` sits inside the
`for group_block in group_blocks` loop, so only the first block is ever
processed; with no block at all the function falls off the end and returns
Python `None` (modelled as an error value). -/
def namelistStringToDict (buffer : List Char) :
    Except PErr (PyDict String (PyDict String PyVal)) :=
  if buffer = [] then .error (.fatal "ValueError: `buffer` argument is empty")
  else
    match groupBlocksOf buffer with
    | [] => .error (.fatal "None: fell through the loop and returned no dictionary")
    | gb :: _ => (processGroupBlock gb).map fun ng => [ng]

/-! ### Side conditions for the serialize-then-parse round trip -/

/-- A character of a key or group name that collides with no delimiter of the
namelist format: not Python whitespace and none of `=  !  (  &  /`.
Every `\w` word character qualifies. -/
def benignKeyChar (c : Char) : Bool :=
  !(isPySpace c) && c != '=' && c != '!' && c != '(' && c != '&' && c != '/'

/-- A character of a rendered value that survives the parser's comment
stripping, block regex and `=`-splitting: none of newline, `&  /  !  =`. -/
def benignValueChar (c : Char) : Bool :=
  c != '\n' && c != '&' && c != '/' && c != '!' && c != '='

/-- The text `parse_python_value_to_fortran` produces for a scalar (on which
it never raises): the branch table of io.py lines 133-162. -/
def scalarRender : PyScalar → List Char
  | .bool b => if b then ".true.".data else ".false.".data
  | .int n => renderInt n
  | .real q => replaceChar 'e' 'd' (formatE10 q)
  | .str s => '\'' :: s.data ++ ['\'']
  | .complex re im => '(' :: formatF5 re ++ ',' :: formatF5 im ++ [')']

/-- The `.ok` payload of `parsePythonValueToFortran` (`[]` on the raising
branch), so the serialized lines can be spelled without an existential. -/
def valRender (v : PyVal) : List Char :=
  match parsePythonValueToFortran v with
  | .ok r => r
  | .error _ => []

/-- A rendered value the parser's line machinery passes through intact:
nonempty, free of structural characters, no whitespace at either end, no
trailing comma. -/
def goodRender (r : List Char) : Prop :=
  r ≠ [] ∧ (∀ c ∈ r, benignValueChar c = true) ∧
  (∀ c, r.head? = some c → isPySpace c = false) ∧
  (∀ c, r.getLast? = some c → isPySpace c = false) ∧
  r.getLast? ≠ some ','

/-- A key or group name the parser passes through intact. -/
def goodName (s : String) : Prop :=
  s.data ≠ [] ∧ ∀ c ∈ s.data, benignKeyChar c = true

/-! ### meshgrid.py -/

/-- A grid description: group → option → scalar-or-list. -/
abbrev GridSpec : Type := PyDict String (PyDict String PyVal)

/-- A run's flat option → value mapping. -/
abbrev RunMapping : Type := PyDict String PyVal

/-- The meshgrid: run identifier string → flat mapping. -/
abbrev Meshgrid : Type := PyDict String RunMapping

/-- `get_number_of_gridpoints` (lines 137-162): product over every
(group, option) pair of the value-list length, scalars contributing 1. -/
def get_number_of_gridpoints (d : GridSpec) : Nat :=
  d.foldl
    (fun n (_, options) =>
      options.foldl
        (fun n (_, v) =>
          match v with
          | .list xs => n * xs.length
          | _ => n)
        n)
    1

/-- `values = [values] if not isinstance(values, list)` (lines 96-101). -/
def wrapValues : PyVal → List PyVal
  | .list xs => xs.map .scalar
  | v => [v]

/-- The flat `option_names` list (duplicates across groups retained). -/
def optionNames (d : GridSpec) : List String :=
  d.flatMap fun (_, options) => dkeys options

/-- `tmpDict` (lines 88-102): later assignments to a repeated option name
overwrite the earlier value but keep its position. -/
def tmpValuesDict (d : GridSpec) : PyDict String (List PyVal) :=
  d.foldl
    (fun td (_, options) =>
      options.foldl (fun td (option, values) => dset td option (wrapValues values)) td)
    []

/-- Cartesian product, first list slowest (C-order enumeration). -/
def prodLex : List (List α) → List (List α)
  | [] => [[]]
  | l :: ls => l.flatMap fun x => (prodLex ls).map (x :: ·)

def swapHead : List α → List α
  | x :: y :: rest => y :: x :: rest
  | l => l

/-- Rows of `np.column_stack([m.flatten() for m in np.meshgrid(*lists)])`
(lines 104-106).  `np.meshgrid` uses `'xy'` indexing, whose output arrays have
shape `(l2, l1, l3, …)`: C-order flattening enumerates the second list
slowest, so the rows are the product with the first two positions swapped.
With no list at all, `np.column_stack([])` raises. -/
def meshgridRows (lists : List (List PyVal)) : Except String (List (List PyVal)) :=
  match lists with
  | [] => .error "ValueError: need at least one array to concatenate"
  | [l] => .ok (l.map fun x => [x])
  | l1 :: l2 :: rest => .ok ((prodLex (l2 :: l1 :: rest)).map swapHead)

/-- Python `f"{k}"` for the run identifier. -/
def idStr (k : Nat) : String := String.mk (natToChars k)

/-- Lines 112-113: the `for j, name in enumerate(option_names)` loop filling
one run's dictionary; `j` is the running index into the grid row, and a row
shorter than `option_names` raises `IndexError`. -/
def fillRowAux (row : List PyVal) : List String → Nat → RunMapping →
    Except String RunMapping
  | [], _, m => .ok m
  | name :: names, j, m =>
    match row.get? j with
    | some v => fillRowAux row names (j + 1) (dset m name v)
    | none => .error "IndexError: index out of bounds for axis 0"

def fillRow (names : List String) (row : List PyVal) (m : RunMapping) :
    Except String RunMapping :=
  fillRowAux row names 0 m

/-- Lines 110-114: the `for k in range(len(grid))` loop; `meshgrid.get(f"{k}")`
returning `None` raises `AttributeError`. -/
def fillMeshgridAux (names : List String) : List (List PyVal) → Nat → Meshgrid →
    Except String Meshgrid
  | [], _, mg => .ok mg
  | row :: rows, k, mg =>
    match dget mg (idStr k) with
    | none => .error "AttributeError: NoneType object has no attribute update"
    | some mk =>
      match fillRow names row mk with
      | .ok mk' => fillMeshgridAux names rows (k + 1) (dset mg (idStr k) mk')
      | .error e => .error e

def fillMeshgrid (names : List String) (rows : List (List PyVal)) (mg : Meshgrid) :
    Except String Meshgrid :=
  fillMeshgridAux names rows 0 mg

/-- Lines 117-127: one `keys_to_pop.append(f"{key}")` per (combination,
satisfied condition) pair — a combination satisfying several conditions is
appended several times. -/
def keysToPop (conditions : List (RunMapping → Bool)) (mg : Meshgrid) : List String :=
  mg.flatMap fun km => (conditions.filter fun c => c km.2).map fun _ => km.1

/-- Lines 130-132: `meshgrid.pop(key)`; popping a key that is no longer
present raises `KeyError`. -/
def popStep (mg : Meshgrid) (key : String) : Except String Meshgrid :=
  if dhasKey mg key then .ok (dremove mg key)
  else .error "KeyError: key already popped from meshgrid"

/-- Lines 117-132: collect the pop keys, then pop them all. -/
def applyConditions (conditions : List (RunMapping → Bool)) (mg : Meshgrid) :
    Except String Meshgrid :=
  (keysToPop conditions mg).foldlM popStep mg

/-- `create_meshgrid_from_dict` (lines 60-134). -/
def create_meshgrid_from_dict (d : GridSpec) (conditions : List (RunMapping → Bool)) :
    Except String Meshgrid := do
  let estimated := get_number_of_gridpoints d
  let mg : Meshgrid := (List.range estimated).map fun k => (idStr k, [])
  let names := optionNames d
  let rows ← meshgridRows ((tmpValuesDict d).map (·.2))
  let mg ← fillMeshgrid names rows mg
  applyConditions conditions mg

/-- The flattened (option, wrapped-value-list) pairs of the grid in iteration
order: what the `tmpDict` construction inserts. -/
def gridPairs (d : GridSpec) : List (String × List PyVal) :=
  d.flatMap fun gp => gp.2.map fun ov => (ov.1, wrapValues ov.2)

/-- The flattened (option, value) pairs of the grid. -/
def flatOptions (d : GridSpec) : List (String × PyVal) := d.flatMap fun gp => gp.2

/-- The specification's gridpoint count: the product over all (group, option)
pairs of the value-list length, a scalar counting as 1. -/
def specGridpointCount (d : GridSpec) : Nat :=
  (d.flatMap fun gp => gp.2.map fun ov =>
    match ov.2 with
    | .list xs => xs.length
    | _ => 1).prod

/-- Every grid value is a scalar (no Python list values). -/
def gridAllScalar (d : GridSpec) : Bool :=
  d.all fun gp => gp.2.all fun ov =>
    match ov.2 with
    | .list _ => false
    | _ => true

/-- Constructor tag of a scalar, for the homogeneity side condition. -/
def scalarKind : PyScalar → Nat
  | .int _ => 0
  | .real _ => 1
  | .bool _ => 2
  | .str _ => 3
  | .complex _ _ => 4

def valKindsOk (kind : Nat) : PyVal → Bool
  | .scalar s => scalarKind s = kind
  | .list xs => xs.all fun x => scalarKind x = kind
  | .ilist _ => false

/-- All grid values share one scalar kind.  Numpy's dtype promotion (which can
rewrite heterogeneous values, e.g. ints to strings) is outside the model; the
meshgrid theorems assume this predicate so the model stays faithful. -/
def homogeneous (d : GridSpec) : Bool :=
  (List.range 5).any fun kind =>
    d.all fun (_, options) => options.all fun (_, v) => valKindsOk kind v

/-- `np.array_split(np.arange(N), B)` section sizes. -/
def arraySplitSize (N B k : Nat) : Nat :=
  if k < N % B then N / B + 1 else N / B

/-- Start offset of section `k`. -/
def chunkOffset (N B : Nat) : Nat → Nat
  | 0 => 0
  | k + 1 => chunkOffset N B k + arraySplitSize N B k

/-- `np.array_split(np.arange(N), B)`: the `B` consecutive index sections. -/
def arraySplitChunks (N B : Nat) : List (List Nat) :=
  (List.range B).map fun k => List.range' (chunkOffset N B k) (arraySplitSize N B k)

/-- `split_grid` (lines 165-201): validate, split `np.arange(len(Grid))` into
`number_of_grids` sections, and stamp `Grid[f"{j}"]["job_id"] = k`; a grid
whose keys are not exactly `"0" .. str(len-1)` raises `KeyError`. -/
def split_grid (numberOfGrids : Int) (grid : Meshgrid) : Except String Meshgrid :=
  if numberOfGrids ≤ 0 then
    .error "ValueError: number_of_grids cannot be lower than 0"
  else if grid = [] then
    .error "ValueError: Grid cannot be 0"
  else
    let B := numberOfGrids.toNat
    let N := grid.length
    (arraySplitChunks N B).enum.foldlM
      (fun g (k, arr) =>
        arr.foldlM
          (fun g j =>
            match dget g (idStr j) with
            | some inner => .ok (dset g (idStr j) (dset inner "job_id" (.scalar (.int k))))
            | none => .error "KeyError: grid key not found")
          g)
      grid

/-! ### `MESArun.__get_non_default_values_for_namelists__`
(src/src/stevma/mesa/__init__.py lines 239-337).  The method's `self` fields
(`run_directory`, `template_directory` and the two cached default catalogs)
become explicit parameters. -/

def specialToggleKeys : List String :=
  ["read_extra_binary_controls_inlist1", "read_extra_binary_controls_inlist2",
   "read_extra_binary_controls_inlist3", "read_extra_binary_controls_inlist4",
   "read_extra_binary_controls_inlist5"]

def specialNameKeys : List String :=
  ["extra_binary_controls_inlist1_name", "extra_binary_controls_inlist2_name",
   "extra_binary_controls_inlist3_name", "extra_binary_controls_inlist4_name",
   "extra_binary_controls_inlist5_name"]

/-- Does `pre` start `s`? -/
def startsWithList : List Char → List Char → Bool
  | [], _ => true
  | _ :: _, [] => false
  | a :: as, b :: bs => a = b && startsWithList as bs

/-- Python `sub in s` (substring containment). -/
def containsSub (sub : List Char) : List Char → Bool
  | [] => sub = []
  | c :: rest => startsWithList sub (c :: rest) || containsSub sub rest

/-- `value.split("/")[-1]`. -/
def lastComponent (s : String) : String :=
  String.mk (((splitChar '/' s.data).getLast?).getD [])

/-- The `#{run}` / `#{template}` placeholder substitution (lines 289-294 and
301-307). -/
def substitutePath (runDir templateDir : String) (s : String) : String :=
  if containsSub "#{run}".data s.data then runDir ++ "/" ++ lastComponent s
  else if containsSub "#{template}".data s.data then templateDir ++ "/" ++ lastComponent s
  else s

/-- The opportunistic float coercion of string values (lines 311-315). -/
def coerceFloat : PyVal → PyVal
  | .scalar (.str s) =>
    match parsePyFloat s.data with
    | some q => .scalar (.real q)
    | none => .scalar (.str s)
  | v => v

/-- Transformation applied to a kept non-special value (lines 300-315):
placeholder substitution on strings, then float coercion. -/
def transformKept (runDir templateDir : String) (v : PyVal) : PyVal :=
  coerceFloat <|
    match v with
    | .scalar (.str s) => .scalar (.str (substitutePath runDir templateDir s))
    | v => v

/-- The array-key renumbering (lines 317-333): a parenthesised key is renamed
`base(r)` where `r` counts the **top-level** (namelist) keys of the result that
contain `base` as a substring — the source checks `nonDefaultOptions.keys()`,
not the group's keys. -/
def renumberKey (nonDefault : PyDict String (PyDict String PyVal)) (key : String) : String :=
  if containsChar key.data '(' && containsChar key.data ')' then
    let keyIdArr := String.mk (((splitChar '(' key.data).head?).getD [])
    let repetition :=
      if ¬ dhasKey nonDefault keyIdArr then 1
      else ((dkeys nonDefault).filter fun k => containsSub keyIdArr.data k.data).length + 1
    keyIdArr ++ "(" ++ String.mk (natToChars repetition) ++ ")"
  else key

/-- `nonDefaultOptions[namelist][key] = value` (the namelist entry exists,
created at the top of the loop). -/
def setIn (nd : PyDict String (PyDict String PyVal)) (nl key : String) (v : PyVal) :
    PyDict String (PyDict String PyVal) :=
  dset nd nl (dset ((dget nd nl).getD []) key v)

/-- Lines 260-263: a requested `bin2dco_controls` namelist selects the
companion catalog's defaults. -/
def selectedDefaults (mesaDefaults bin2dcoDefaults : PyDict String (PyDict String PyVal))
    (namelists : List String) : PyDict String (PyDict String PyVal) :=
  if namelists.contains "bin2dco_controls" then bin2dcoDefaults else mesaDefaults

/-- The body of the option loop (lines 271-335) for one `(key, value)` pair:
toggle keys pass through, name keys substitute and pass through (a non-string
value makes `"#{run}" in value` raise), everything else is compared against the
catalog default (`defaultDicts.get(namelist)[key]` raising when missing) and
kept — transformed and possibly renumbered — only when different. -/
def diffStepM (runDir templateDir : String)
    (defaultDicts : PyDict String (PyDict String PyVal)) (namelist : String)
    (nonDefault : PyDict String (PyDict String PyVal)) (kv : String × PyVal) :
    Except String (PyDict String (PyDict String PyVal)) :=
  if specialToggleKeys.contains kv.1 then .ok (setIn nonDefault namelist kv.1 kv.2)
  else if specialNameKeys.contains kv.1 then
    match kv.2 with
    | .scalar (.str s) =>
      .ok (setIn nonDefault namelist kv.1
        (.scalar (.str (substitutePath runDir templateDir s))))
    | _ => .error "TypeError: argument is not iterable"
  else
    match dget defaultDicts namelist with
    | none => .error "TypeError: NoneType object is not subscriptable"
    | some dd =>
      match dget dd kv.1 with
      | none => .error "KeyError: option not found in defaults"
      | some defaultValue =>
        if PyVal.pyEq kv.2 defaultValue then .ok nonDefault
        else
          .ok (setIn nonDefault namelist (renumberKey nonDefault kv.1)
            (transformKept runDir templateDir kv.2))

/-- The body of the namelist loop (lines 266-270): create the (empty) result
group, then process the namelist's options when present. -/
def processNamelist (runDir templateDir : String)
    (defaultDicts Options : PyDict String (PyDict String PyVal))
    (nonDefault : PyDict String (PyDict String PyVal)) (namelist : String) :
    Except String (PyDict String (PyDict String PyVal)) :=
  let nonDefault := dset nonDefault namelist []
  match dget Options namelist with
  | none => .ok nonDefault
  | some optionsForNamelist =>
    optionsForNamelist.foldlM (diffStepM runDir templateDir defaultDicts namelist)
      nonDefault

/-- `__get_non_default_values_for_namelists__`. -/
def getNonDefaultValuesForNamelists (runDir templateDir : String)
    (mesaDefaults bin2dcoDefaults : PyDict String (PyDict String PyVal))
    (Options : PyDict String (PyDict String PyVal)) (namelists : List String) :
    Except String (PyDict String (PyDict String PyVal)) :=
  if Options = [] then
    .error "ValueError: `Options` (dict argument) cannot be an empty dictionary"
  else
    namelists.foldlM
      (processNamelist runDir templateDir
        (selectedDefaults mesaDefaults bin2dcoDefaults namelists) Options)
      []

/-! #### A pure mirror of the differ on well-formed options -/

/-- Pure mirror of `diffStepM` acting on the single group dictionary; equal to
the monadic step on options satisfying `optionWF`. -/
def diffStep (runDir templateDir : String)
    (defaultDicts : PyDict String (PyDict String PyVal)) (namelist : String)
    (g : PyDict String PyVal) (kv : String × PyVal) : PyDict String PyVal :=
  if specialToggleKeys.contains kv.1 then dset g kv.1 kv.2
  else if specialNameKeys.contains kv.1 then
    match kv.2 with
    | .scalar (.str s) =>
      dset g kv.1 (.scalar (.str (substitutePath runDir templateDir s)))
    | _ => g
  else
    match dget defaultDicts namelist with
    | none => g
    | some dd =>
      match dget dd kv.1 with
      | none => g
      | some defaultValue =>
        if PyVal.pyEq kv.2 defaultValue then g
        else dset g kv.1 (transformKept runDir templateDir kv.2)

/-- The group the differ builds for one namelist. -/
def expectedGroup (runDir templateDir : String)
    (defaultDicts : PyDict String (PyDict String PyVal)) (namelist : String)
    (opts : PyDict String PyVal) : PyDict String PyVal :=
  opts.foldl (diffStep runDir templateDir defaultDicts namelist) []

/-- What one option contributes to its group: `none` when omitted. -/
def diffResult (runDir templateDir : String)
    (defaultDicts : PyDict String (PyDict String PyVal)) (namelist : String)
    (k : String) (v : PyVal) : Option PyVal :=
  if specialToggleKeys.contains k then some v
  else if specialNameKeys.contains k then
    match v with
    | .scalar (.str s) => some (.scalar (.str (substitutePath runDir templateDir s)))
    | _ => none
  else
    match dget defaultDicts namelist with
    | none => none
    | some dd =>
      match dget dd k with
      | none => none
      | some defaultValue =>
        if PyVal.pyEq v defaultValue then none
        else some (transformKept runDir templateDir v)

/-- An option entry the differ can process without raising: no parenthesised
index in the key, a string value under a special name key, and an existing
catalog default for a non-special key. -/
def optionWF (defaultDicts : PyDict String (PyDict String PyVal)) (namelist : String)
    (kv : String × PyVal) : Prop :=
  containsChar kv.1.data '(' = false ∧
  (kv.1 ∈ specialNameKeys → ∃ s, kv.2 = .scalar (.str s)) ∧
  (kv.1 ∉ specialToggleKeys → kv.1 ∉ specialNameKeys →
    ∃ dd dv, dget defaultDicts namelist = some dd ∧ dget dd kv.1 = some dv)

/-- Well-formedness of the whole differ call. -/
def diffWF (defaultDicts Options : PyDict String (PyDict String PyVal))
    (namelists : List String) : Prop :=
  Options ≠ [] ∧ namelists.Nodup ∧
  ∀ nl ∈ namelists, ∀ opts, dget Options nl = some opts →
    ∀ kv ∈ opts, optionWF defaultDicts nl kv

/-! ### Dictionary lemmas used by the differ proofs -/

section PyDictLemmas

variable {κ α : Type} [DecidableEq κ]

@[simp] theorem dget_nil (k : κ) : dget ([] : PyDict κ α) k = none := rfl

@[simp] theorem dget_cons (k k' : κ) (v : α) (rest : PyDict κ α) :
    dget ((k', v) :: rest) k = if k' = k then some v else dget rest k := rfl

@[simp] theorem dkeys_nil : dkeys ([] : PyDict κ α) = [] := rfl

@[simp] theorem dkeys_cons (k : κ) (v : α) (rest : PyDict κ α) :
    dkeys ((k, v) :: rest) = k :: dkeys rest := rfl

@[simp] theorem dkeys_cons_pair (kv : κ × α) (rest : PyDict κ α) :
    dkeys (kv :: rest) = kv.1 :: dkeys rest := rfl

theorem dget_dset_self (d : PyDict κ α) (k : κ) (v : α) : dget (dset d k v) k = some v := by
  induction d with
  | nil => simp [dset, dget]
  | cons hd tl ih =>
    obtain ⟨k', v'⟩ := hd
    by_cases h : k' = k <;> simp [dset, dget, h, ih]

theorem dget_dset_ne (d : PyDict κ α) (k k' : κ) (v : α) (h : k ≠ k') :
    dget (dset d k v) k' = dget d k' := by
  induction d with
  | nil => simp [dset, dget, h]
  | cons hd tl ih =>
    obtain ⟨k'', v''⟩ := hd
    by_cases h2 : k'' = k
    · subst h2; simp [dset, dget, h]
    · simp [dset, dget, h2, ih]

theorem dkeys_dset_of_hasKey (d : PyDict κ α) (k : κ) (v : α) (h : dhasKey d k = true) :
    dkeys (dset d k v) = dkeys d := by
  induction d with
  | nil => simp [dhasKey] at h
  | cons hd tl ih =>
    obtain ⟨k', v'⟩ := hd
    by_cases h2 : k' = k
    · simp [dset, h2, dkeys]
    · simp [dhasKey, h2] at h
      simp [dset, h2, dkeys] at ih ⊢
      exact ih h

theorem dhasKey_iff_isSome (d : PyDict κ α) (k : κ) :
    dhasKey d k = true ↔ (dget d k).isSome = true := by
  induction d with
  | nil => simp [dhasKey, dget]
  | cons hd tl ih =>
    obtain ⟨k', v'⟩ := hd
    by_cases h : k' = k <;> simp [dhasKey, dget, h, ih]

theorem dget_dremove_ne (d : PyDict κ α) (k k' : κ) (h : k ≠ k') :
    dget (dremove d k) k' = dget d k' := by
  induction d with
  | nil => simp [dremove]
  | cons hd tl ih =>
    obtain ⟨k'', v''⟩ := hd
    by_cases h2 : k'' = k
    · subst h2; simp [dremove, dget, h]
    · simp [dremove, dget, h2, ih]

theorem dget_eq_some_of_mem_nodup (d : PyDict κ α) (k : κ) (v : α)
    (hmem : (k, v) ∈ d) (hnd : (dkeys d).Nodup) : dget d k = some v := by
  induction d with
  | nil => cases hmem
  | cons hd tl ih =>
    obtain ⟨k', v'⟩ := hd
    simp only [dkeys_cons, List.nodup_cons] at hnd
    rcases List.mem_cons.mp hmem with h | h
    · cases h; simp [dget]
    · have hk : k' ≠ k := by
        intro hkk; subst hkk
        exact hnd.1 (List.mem_map.mpr ⟨(k', v), h, rfl⟩)
      simp [dget, hk, ih h hnd.2]


end PyDictLemmas

theorem dset_eq_self_of_get {κ α : Type} [DecidableEq κ] (d : PyDict κ α) (k : κ) (v : α)
    (h : dget d k = some v) : dset d k v = d := by
  induction d with
  | nil => simp [dget] at h
  | cons hd tl ih =>
    obtain ⟨k', v'⟩ := hd
    by_cases h2 : k' = k
    · subst h2
      simp [dget] at h
      simp [dset, h]
    · simp [dget, h2] at h
      simp [dset, h2, ih h]

theorem dset_dset_same {κ α : Type} [DecidableEq κ] (d : PyDict κ α) (k : κ) (v w : α) :
    dset (dset d k v) k w = dset d k w := by
  induction d with
  | nil => simp [dset]
  | cons hd tl ih =>
    obtain ⟨k', v'⟩ := hd
    by_cases h2 : k' = k <;> simp [dset, h2, ih]

theorem renumberKey_id (nd : PyDict String (PyDict String PyVal)) (key : String)
    (h : containsChar key.data '(' = false) : renumberKey nd key = key := by
  unfold renumberKey
  simp [h]

theorem diffStepM_ok_of_wf (rd td : String)
    (D : PyDict String (PyDict String PyVal)) (nl : String)
    (nd : PyDict String (PyDict String PyVal)) (g : PyDict String PyVal)
    (kv : String × PyVal) (hg : dget nd nl = some g) (hwf : optionWF D nl kv) :
    diffStepM rd td D nl nd kv = .ok (dset nd nl (diffStep rd td D nl g kv)) := by
  obtain ⟨k, v⟩ := kv
  obtain ⟨hparen, hname, hdef⟩ := hwf
  unfold diffStepM diffStep setIn
  by_cases h1 : k ∈ specialToggleKeys
  · simp [h1, hg]
  · by_cases h2 : k ∈ specialNameKeys
    · obtain ⟨s, hs⟩ := hname h2
      simp only at hs
      rw [hs]
      simp [h1, h2, hg]
    · obtain ⟨dd, dv, hdd, hdv⟩ := hdef h1 h2
      simp only at hdd hdv
      simp only [hg, Option.getD_some, hdd, hdv]
      by_cases h3 : PyVal.pyEq v dv = true
      · simp [h1, h2, h3, dset_eq_self_of_get nd nl g hg]
      · simp [h1, h2, h3, hg, renumberKey_id nd k hparen]

theorem foldDiffStepM_ok (rd td : String) (D : PyDict String (PyDict String PyVal))
    (nl : String) :
    ∀ (opts : PyDict String PyVal) (nd : PyDict String (PyDict String PyVal))
      (g : PyDict String PyVal),
      dget nd nl = some g → (∀ kv ∈ opts, optionWF D nl kv) →
      opts.foldlM (diffStepM rd td D nl) nd =
        .ok (dset nd nl (opts.foldl (diffStep rd td D nl) g)) := by
  intro opts
  induction opts with
  | nil =>
    intro nd g hg _
    rw [List.foldlM_nil, List.foldl_nil, dset_eq_self_of_get nd nl g hg]
    rfl
  | cons kv rest ih =>
    intro nd g hg hwf
    rw [List.foldlM_cons,
      diffStepM_ok_of_wf rd td D nl nd g kv hg (hwf kv (List.mem_cons_self _ _))]
    have hbind : (Except.ok (dset nd nl (diffStep rd td D nl g kv)) >>= fun nd' =>
        rest.foldlM (diffStepM rd td D nl) nd') =
        rest.foldlM (diffStepM rd td D nl) (dset nd nl (diffStep rd td D nl g kv)) := rfl
    rw [hbind, ih (dset nd nl (diffStep rd td D nl g kv)) (diffStep rd td D nl g kv)
      (dget_dset_self nd nl _) (fun kv' h => hwf kv' (List.mem_cons_of_mem _ h))]
    rw [dset_dset_same]
    rfl

theorem processNamelist_ok (rd td : String)
    (D Options : PyDict String (PyDict String PyVal))
    (nd : PyDict String (PyDict String PyVal)) (nl : String)
    (hwf : ∀ opts, dget Options nl = some opts → ∀ kv ∈ opts, optionWF D nl kv) :
    processNamelist rd td D Options nd nl =
      .ok (dset nd nl (expectedGroup rd td D nl ((dget Options nl).getD []))) := by
  unfold processNamelist expectedGroup
  cases hOpt : dget Options nl with
  | none => simp [List.foldl]
  | some opts =>
    simp only [Option.getD_some]
    exact (foldDiffStepM_ok rd td D nl opts (dset nd nl []) [] (dget_dset_self nd nl [])
      (hwf opts hOpt)).trans (by rw [dset_dset_same])

theorem getNonDefault_foldl_ok (rd td : String)
    (D Options : PyDict String (PyDict String PyVal)) :
    ∀ (namelists : List String) (nd : PyDict String (PyDict String PyVal)),
      namelists.Nodup →
      (∀ nl ∈ namelists, ∀ opts, dget Options nl = some opts →
        ∀ kv ∈ opts, optionWF D nl kv) →
      ∃ R, namelists.foldlM (processNamelist rd td D Options) nd = .ok R ∧
        (∀ nl ∈ namelists,
          dget R nl = some (expectedGroup rd td D nl ((dget Options nl).getD []))) ∧
        (∀ nl', nl' ∉ namelists → dget R nl' = dget nd nl') := by
  intro namelists
  induction namelists with
  | nil => exact fun nd _ _ => ⟨nd, rfl, by simp, fun _ _ => rfl⟩
  | cons nl rest ih =>
    intro nd hnodup hwf
    have hstep := processNamelist_ok rd td D Options nd nl
      (fun opts h => hwf nl (List.mem_cons_self _ _) opts h)
    obtain ⟨R, hR, hmem, hfr⟩ :=
      ih (dset nd nl (expectedGroup rd td D nl ((dget Options nl).getD [])))
        (List.nodup_cons.mp hnodup).2
        (fun nl' h opts ho kv hkv => hwf nl' (List.mem_cons_of_mem _ h) opts ho kv hkv)
    refine ⟨R, ?_, ?_, ?_⟩
    · rw [List.foldlM_cons, hstep]
      exact hR
    · intro nl' hmem'
      rcases List.mem_cons.mp hmem' with h | h
      · subst h
        rw [hfr nl' (List.nodup_cons.mp hnodup).1, dget_dset_self]
      · exact hmem nl' h
    · intro nl' hnot
      have h1 : nl' ≠ nl := fun h => hnot (h ▸ List.mem_cons_self _ _)
      have h2 : nl' ∉ rest := fun h => hnot (List.mem_cons_of_mem _ h)
      rw [hfr nl' h2, dget_dset_ne nd nl nl' _ (Ne.symm h1)]

theorem getNonDefault_characterization (rd td : String)
    (mesaD binD Options : PyDict String (PyDict String PyVal))
    (namelists : List String)
    (hwf : diffWF (selectedDefaults mesaD binD namelists) Options namelists) :
    ∃ R, getNonDefaultValuesForNamelists rd td mesaD binD Options namelists = .ok R ∧
      ∀ nl ∈ namelists, dget R nl =
        some (expectedGroup rd td (selectedDefaults mesaD binD namelists) nl
          ((dget Options nl).getD [])) := by
  obtain ⟨hne, hnodup, hopt⟩ := hwf
  obtain ⟨R, hR, hmem, -⟩ :=
    getNonDefault_foldl_ok rd td (selectedDefaults mesaD binD namelists) Options
      namelists [] hnodup hopt
  refine ⟨R, ?_, hmem⟩
  unfold getNonDefaultValuesForNamelists
  simp [hne, hR]

/-! ### Per-option behaviour of the pure differ mirror -/

theorem diffStep_get_ne (rd td : String) (D : PyDict String (PyDict String PyVal))
    (nl : String) (g : PyDict String PyVal) (kv : String × PyVal) (k : String)
    (h : kv.1 ≠ k) : dget (diffStep rd td D nl g kv) k = dget g k := by
  obtain ⟨k0, v0⟩ := kv
  simp only at h
  unfold diffStep
  by_cases h1 : k0 ∈ specialToggleKeys
  · simp [h1, dget_dset_ne g k0 k _ h]
  · by_cases h2 : k0 ∈ specialNameKeys
    · cases v0 with
      | scalar s =>
        cases s <;> simp [h1, h2, dget_dset_ne g k0 k _ h]
      | list xs => simp [h1, h2]
      | ilist es => simp [h1, h2]
    · cases hdd : dget D nl with
      | none => simp [h1, h2, hdd]
      | some dd =>
        cases hdv : dget dd k0 with
        | none => simp [h1, h2, hdd, hdv]
        | some dv =>
          by_cases h3 : PyVal.pyEq v0 dv = true <;>
            simp [h1, h2, hdd, hdv, h3, dget_dset_ne g k0 k _ h]

theorem diffStep_get_self (rd td : String) (D : PyDict String (PyDict String PyVal))
    (nl : String) (g : PyDict String PyVal) (k : String) (v : PyVal) :
    dget (diffStep rd td D nl g (k, v)) k =
      (diffResult rd td D nl k v).or (dget g k) := by
  unfold diffStep diffResult
  by_cases h1 : k ∈ specialToggleKeys
  · simp [h1, dget_dset_self, Option.or]
  · by_cases h2 : k ∈ specialNameKeys
    · cases v with
      | scalar s =>
        cases s <;> simp [h1, h2, dget_dset_self, Option.or]
      | list xs => simp [h1, h2, Option.or]
      | ilist es => simp [h1, h2, Option.or]
    · cases hdd : dget D nl with
      | none => simp [h1, h2, hdd, Option.or]
      | some dd =>
        cases hdv : dget dd k with
        | none => simp [h1, h2, hdd, hdv, Option.or]
        | some dv =>
          by_cases h3 : PyVal.pyEq v dv = true <;>
            simp [h1, h2, hdd, hdv, h3, dget_dset_self, Option.or]

theorem diffStep_eq_self_of_none (rd td : String)
    (D : PyDict String (PyDict String PyVal)) (nl : String) (g : PyDict String PyVal)
    (kv : String × PyVal) (h : diffResult rd td D nl kv.1 kv.2 = none) :
    diffStep rd td D nl g kv = g := by
  obtain ⟨k, v⟩ := kv
  simp only at h
  unfold diffResult at h
  unfold diffStep
  by_cases h1 : k ∈ specialToggleKeys
  · simp [h1] at h
  · by_cases h2 : k ∈ specialNameKeys
    · cases v with
      | scalar s =>
        cases s <;> simp [h1, h2] at h ⊢
      | list xs => simp [h1, h2]
      | ilist es => simp [h1, h2]
    · cases hdd : dget D nl with
      | none => simp [h1, h2, hdd]
      | some dd =>
        cases hdv : dget dd k with
        | none => simp [h1, h2, hdd, hdv]
        | some dv =>
          by_cases h3 : PyVal.pyEq v dv = true
          · simp [h1, h2, hdd, hdv, h3]
          · simp [h1, h2, hdd, hdv, h3] at h

theorem diffStep_eq_dset_of_some (rd td : String)
    (D : PyDict String (PyDict String PyVal)) (nl : String) (g : PyDict String PyVal)
    (k : String) (v : PyVal) (x : PyVal) (h : diffResult rd td D nl k v = some x) :
    diffStep rd td D nl g (k, v) = dset g k x := by
  unfold diffResult at h
  unfold diffStep
  by_cases h1 : k ∈ specialToggleKeys
  · simp [h1] at h ⊢
    rw [h]
  · by_cases h2 : k ∈ specialNameKeys
    · cases v with
      | scalar s =>
        cases s <;> simp_all [h1, h2]
      | list xs => simp [h1, h2] at h
      | ilist es => simp [h1, h2] at h
    · cases hdd : dget D nl with
      | none => simp [h1, h2, hdd] at h
      | some dd =>
        cases hdv : dget dd k with
        | none => simp [h1, h2, hdd, hdv] at h
        | some dv =>
          by_cases h3 : PyVal.pyEq v dv = true
          · simp [h1, h2, hdd, hdv, h3] at h
          · simp [h1, h2, hdd, hdv, h3] at h ⊢
            rw [h]

theorem foldDiff_get_of_notmem (rd td : String) (D : PyDict String (PyDict String PyVal))
    (nl : String) :
    ∀ (opts : PyDict String PyVal) (g : PyDict String PyVal) (k : String),
      k ∉ dkeys opts →
      dget (opts.foldl (diffStep rd td D nl) g) k = dget g k := by
  intro opts
  induction opts with
  | nil => intro g k _; rfl
  | cons kv rest ih =>
    intro g k hk
    simp only [dkeys_cons_pair, List.mem_cons, not_or] at hk
    rw [List.foldl_cons, ih _ k (by simpa [dkeys] using hk.2),
      diffStep_get_ne rd td D nl g kv k (Ne.symm hk.1)]

theorem expectedGroup_get_aux (rd td : String) (D : PyDict String (PyDict String PyVal))
    (nl : String) (k : String) (v : PyVal) :
    ∀ (opts : PyDict String PyVal) (g : PyDict String PyVal),
      (k, v) ∈ opts → (dkeys opts).Nodup → dget g k = none →
      dget (opts.foldl (diffStep rd td D nl) g) k = diffResult rd td D nl k v := by
  intro opts
  induction opts with
  | nil => intro g h; cases h
  | cons kv rest ih =>
    intro g hmem hnodup hg
    simp only [dkeys_cons_pair, List.nodup_cons] at hnodup
    rcases List.mem_cons.mp hmem with h | h
    · subst h
      rw [List.foldl_cons,
        foldDiff_get_of_notmem rd td D nl rest (diffStep rd td D nl g (k, v)) k hnodup.1,
        diffStep_get_self, hg, Option.or_none]
    · have hk : kv.1 ≠ k := by
        intro hkk
        exact hnodup.1 (hkk ▸ List.mem_map.mpr ⟨(k, v), h, rfl⟩)
      rw [List.foldl_cons]
      exact ih (diffStep rd td D nl g kv) h hnodup.2
        (by rw [diffStep_get_ne rd td D nl g kv k hk]; exact hg)

theorem expectedGroup_get (rd td : String) (D : PyDict String (PyDict String PyVal))
    (nl : String) (opts : PyDict String PyVal) (k : String) (v : PyVal)
    (hmem : (k, v) ∈ opts) (hnodup : (dkeys opts).Nodup) :
    dget (expectedGroup rd td D nl opts) k = diffResult rd td D nl k v :=
  expectedGroup_get_aux rd td D nl k v opts [] hmem hnodup rfl

theorem foldDiff_eq_self_of_all_none (rd td : String)
    (D : PyDict String (PyDict String PyVal)) (nl : String) :
    ∀ (opts : PyDict String PyVal) (g : PyDict String PyVal),
      (∀ kv ∈ opts, diffResult rd td D nl kv.1 kv.2 = none) →
      opts.foldl (diffStep rd td D nl) g = g := by
  intro opts
  induction opts with
  | nil => intro g _; rfl
  | cons kv rest ih =>
    intro g hall
    rw [List.foldl_cons,
      diffStep_eq_self_of_none rd td D nl g kv (hall kv (List.mem_cons_self _ _))]
    exact ih g fun kv' h => hall kv' (List.mem_cons_of_mem _ h)

theorem expectedGroup_single (rd td : String) (D : PyDict String (PyDict String PyVal))
    (nl : String) (opts : PyDict String PyVal) (k : String) (v : PyVal) (x : PyVal)
    (hmem : (k, v) ∈ opts) (hnodup : (dkeys opts).Nodup)
    (hothers : ∀ k' v', (k', v') ∈ opts → k' ≠ k → diffResult rd td D nl k' v' = none)
    (hx : diffResult rd td D nl k v = some x) :
    expectedGroup rd td D nl opts = [(k, x)] := by
  unfold expectedGroup
  have aux : ∀ (l : PyDict String PyVal) (g : PyDict String PyVal),
      (k, v) ∈ l → (dkeys l).Nodup →
      (∀ k' v', (k', v') ∈ l → k' ≠ k → diffResult rd td D nl k' v' = none) →
      l.foldl (diffStep rd td D nl) g = dset g k x := by
    intro l
    induction l with
    | nil => intro g h; cases h
    | cons kv rest ih =>
      intro g hm hnd hoth
      simp only [dkeys_cons_pair, List.nodup_cons] at hnd
      rcases List.mem_cons.mp hm with h | h
      · subst h
        rw [List.foldl_cons, diffStep_eq_dset_of_some rd td D nl g k v x hx]
        apply foldDiff_eq_self_of_all_none
        intro kv' h'
        refine hoth kv'.1 kv'.2 (List.mem_cons_of_mem _ h') ?_
        intro hkk
        exact hnd.1 (hkk ▸ List.mem_map.mpr ⟨kv', h', rfl⟩)
      · have hk : kv.1 ≠ k := by
          intro hkk
          exact hnd.1 (hkk ▸ List.mem_map.mpr ⟨(k, v), h, rfl⟩)
        rw [List.foldl_cons,
          diffStep_eq_self_of_none rd td D nl g kv (hoth kv.1 kv.2 (List.mem_cons_self _ _) hk)]
        exact ih g h hnd.2 fun k' v' h' hkk => hoth k' v' (List.mem_cons_of_mem _ h') hkk
  exact aux opts [] hmem hnodup hothers

/-! ## Claim C5 (confirmed): the differ omits an option iff it equals the
catalog default -/

/-- C5: for every group and every non-passthrough option in the run's override
source (well-formed: no parenthesised keys, string values under the special
name keys, defaults present), the configuration differ omits the option from
the result exactly when its value Python-equals the catalog default for that
(group, option); hence a source whose options all equal the defaults yields an
empty override group, and a source differing in exactly one option per group
yields exactly that option (with the differ's path/float transformation
applied). -/
theorem c5_diff_omits_iff_equals_default (runDir templateDir : String)
    (mesaD binD Options : PyDict String (PyDict String PyVal))
    (namelists : List String)
    (hwf : diffWF (selectedDefaults mesaD binD namelists) Options namelists)
    (hnodupOpts : ∀ nl ∈ namelists, ∀ opts, dget Options nl = some opts →
      (dkeys opts).Nodup) :
    -- (a) an option is omitted from its group's result iff it equals the default
    (∀ nl ∈ namelists, ∀ opts, dget Options nl = some opts →
      ∀ k v, (k, v) ∈ opts → k ∉ specialToggleKeys → k ∉ specialNameKeys →
      ∀ dd dv, dget (selectedDefaults mesaD binD namelists) nl = some dd →
        dget dd k = some dv →
        (getNonDefaultValuesForNamelists runDir templateDir mesaD binD Options
            namelists).map
          (fun R => ((dget R nl).bind fun g => dget g k) = none) =
          .ok (PyVal.pyEq v dv = true)) ∧
    -- (b) options that all equal the defaults produce an empty override group
    (∀ nl ∈ namelists, ∀ opts, dget Options nl = some opts →
      (∀ k v, (k, v) ∈ opts → k ∉ specialToggleKeys ∧ k ∉ specialNameKeys ∧
        ∃ dd dv, dget (selectedDefaults mesaD binD namelists) nl = some dd ∧
          dget dd k = some dv ∧ PyVal.pyEq v dv = true) →
      (getNonDefaultValuesForNamelists runDir templateDir mesaD binD Options
          namelists).map (fun R => dget R nl) = .ok (some [])) ∧
    -- (c) exactly one differing non-passthrough option produces exactly that option
    (∀ nl ∈ namelists, ∀ opts, dget Options nl = some opts →
      ∀ k v, (k, v) ∈ opts →
      (∀ k' v', (k', v') ∈ opts → k' ∉ specialToggleKeys ∧ k' ∉ specialNameKeys) →
      (∀ k' v', (k', v') ∈ opts → k' ≠ k →
        ∃ dd dv, dget (selectedDefaults mesaD binD namelists) nl = some dd ∧
          dget dd k' = some dv ∧ PyVal.pyEq v' dv = true) →
      (∀ dd dv, dget (selectedDefaults mesaD binD namelists) nl = some dd →
        dget dd k = some dv → PyVal.pyEq v dv = false) →
      (getNonDefaultValuesForNamelists runDir templateDir mesaD binD Options
          namelists).map (fun R => dget R nl) =
        .ok (some [(k, transformKept runDir templateDir v)])) := by
  obtain ⟨R, hR, hchar⟩ :=
    getNonDefault_characterization runDir templateDir mesaD binD Options namelists hwf
  refine ⟨?_, ?_, ?_⟩
  · intro nl hnl opts hopts k v hkv h1 h2 dd dv hdd hdv
    rw [hR]
    have hgrp := hchar nl hnl
    rw [hopts] at hgrp
    simp only [Except.map, Option.getD_some] at hgrp ⊢
    rw [hgrp]
    simp only [Option.some_bind]
    rw [expectedGroup_get runDir templateDir _ nl opts k v hkv
      (hnodupOpts nl hnl opts hopts)]
    unfold diffResult
    by_cases h3 : PyVal.pyEq v dv = true
    · simp [h1, h2, hdd, hdv, h3]
    · simp [h1, h2, hdd, hdv, h3]
  · intro nl hnl opts hopts hall
    rw [hR]
    have hgrp := hchar nl hnl
    rw [hopts] at hgrp
    simp only [Except.map, Option.getD_some] at hgrp ⊢
    rw [hgrp]
    unfold expectedGroup
    rw [foldDiff_eq_self_of_all_none]
    intro kv hkv
    obtain ⟨h1, h2, dd, dv, hdd, hdv, heq⟩ := hall kv.1 kv.2 hkv
    unfold diffResult
    simp [h1, h2, hdd, hdv, heq]
  · intro nl hnl opts hopts k v hkv hnonspecial hothers hdiff
    rw [hR]
    have hgrp := hchar nl hnl
    rw [hopts] at hgrp
    simp only [Except.map, Option.getD_some] at hgrp ⊢
    rw [hgrp]
    obtain ⟨h1, h2⟩ := hnonspecial k v hkv
    obtain ⟨hparen, hname, hdef⟩ := hwf.2.2 nl hnl opts hopts (k, v) hkv
    obtain ⟨dd, dv, hdd, hdv⟩ := hdef h1 h2
    simp only at hdd hdv
    have hx : diffResult runDir templateDir (selectedDefaults mesaD binD namelists)
        nl k v = some (transformKept runDir templateDir v) := by
      unfold diffResult
      simp [h1, h2, hdd, hdv, hdiff dd dv hdd hdv]
    rw [expectedGroup_single runDir templateDir _ nl opts k v _ hkv
      (hnodupOpts nl hnl opts hopts) ?_ hx]
    intro k' v' hkv' hkk
    obtain ⟨h1', h2'⟩ := hnonspecial k' v' hkv'
    obtain ⟨dd', dv', hdd', hdv', heq'⟩ := hothers k' v' hkv' hkk
    unfold diffResult
    simp [h1', h2', hdd', hdv', heq']

/-- C5 witness: one group, one non-passthrough option equal to its catalog
default — the resulting override group is empty. -/
theorem c5_witness :
    (getNonDefaultValuesForNamelists "/r" "/t"
        [("controls", [("mixing_length_alpha", PyVal.scalar (.int 2))])] []
        [("controls", [("mixing_length_alpha", PyVal.scalar (.int 2))])]
        ["controls"]).map (fun R => dget R "controls") = .ok (some []) := by
  have hwf : diffWF
      (selectedDefaults [("controls", [("mixing_length_alpha", PyVal.scalar (.int 2))])]
        [] ["controls"])
      [("controls", [("mixing_length_alpha", PyVal.scalar (.int 2))])] ["controls"] := by
    refine ⟨by decide, by decide, ?_⟩
    intro nl hnl opts hopts kv hkv
    simp only [List.mem_singleton] at hnl
    subst hnl
    simp only [dget, if_pos] at hopts
    cases hopts
    simp only [List.mem_singleton] at hkv
    subst hkv
    refine ⟨by decide, fun hmem => absurd hmem (by decide), fun _ _ => ?_⟩
    exact ⟨[("mixing_length_alpha", PyVal.scalar (.int 2))], PyVal.scalar (.int 2),
      by decide, by decide⟩
  refine (c5_diff_omits_iff_equals_default "/r" "/t" _ _ _ _ hwf ?_).2.1 "controls"
    (by decide) [("mixing_length_alpha", PyVal.scalar (.int 2))] (by decide) ?_
  · intro nl hnl opts hopts
    simp only [List.mem_singleton] at hnl
    subst hnl
    simp only [dget, if_pos] at hopts
    cases hopts
    decide
  · intro k v hkv
    simp only [List.mem_singleton] at hkv
    cases hkv
    refine ⟨by decide, by decide,
      [("mixing_length_alpha", PyVal.scalar (.int 2))], PyVal.scalar (.int 2),
      by decide, by decide, by decide⟩

/-! ## Claim C9 (confirmed): the extra-inlist toggle keys pass through
verbatim -/

/-- C9: for every group in the override source and each of the five numbered
`read_extra_binary_controls_inlistN` toggle keys present in it, the differ
includes the key and its value verbatim in the result — no catalog-default
comparison is performed for them, so this holds even when the value equals the
default. -/
theorem c9_toggle_keys_pass_through (runDir templateDir : String)
    (mesaD binD Options : PyDict String (PyDict String PyVal))
    (namelists : List String)
    (hwf : diffWF (selectedDefaults mesaD binD namelists) Options namelists)
    (hnodupOpts : ∀ nl ∈ namelists, ∀ opts, dget Options nl = some opts →
      (dkeys opts).Nodup)
    (nl : String) (hnl : nl ∈ namelists) (opts : PyDict String PyVal)
    (hopts : dget Options nl = some opts) (k : String) (v : PyVal)
    (hkv : (k, v) ∈ opts) (htoggle : k ∈ specialToggleKeys) :
    (getNonDefaultValuesForNamelists runDir templateDir mesaD binD Options
        namelists).map (fun R => (dget R nl).bind fun g => dget g k) =
      .ok (some v) := by
  obtain ⟨R, hR, hchar⟩ :=
    getNonDefault_characterization runDir templateDir mesaD binD Options namelists hwf
  rw [hR]
  have hgrp := hchar nl hnl
  rw [hopts] at hgrp
  simp only [Except.map, Option.getD_some] at hgrp ⊢
  rw [hgrp]
  simp only [Option.some_bind]
  rw [expectedGroup_get runDir templateDir _ nl opts k v hkv
    (hnodupOpts nl hnl opts hopts)]
  unfold diffResult
  simp [htoggle]

/-- C9 witness: the first toggle key, with a value equal to the catalog
default, is still included verbatim. -/
theorem c9_witness :
    (getNonDefaultValuesForNamelists "/r" "/t"
        [("binary_controls", [("read_extra_binary_controls_inlist1",
          PyVal.scalar (.bool true))])] []
        [("binary_controls", [("read_extra_binary_controls_inlist1",
          PyVal.scalar (.bool true))])]
        ["binary_controls"]).map
      (fun R => (dget R "binary_controls").bind fun g =>
        dget g "read_extra_binary_controls_inlist1") =
      .ok (some (PyVal.scalar (.bool true))) := by
  have hwf : diffWF
      (selectedDefaults
        [("binary_controls", [("read_extra_binary_controls_inlist1",
          PyVal.scalar (.bool true))])] [] ["binary_controls"])
      [("binary_controls", [("read_extra_binary_controls_inlist1",
        PyVal.scalar (.bool true))])] ["binary_controls"] := by
    refine ⟨by decide, by decide, ?_⟩
    intro nl hnl opts hopts kv hkv
    simp only [List.mem_singleton] at hnl
    subst hnl
    simp only [dget, if_pos] at hopts
    cases hopts
    simp only [List.mem_singleton] at hkv
    subst hkv
    exact ⟨by decide, fun hmem => absurd hmem (by decide),
      fun htog _ => absurd (by decide) htog⟩
  refine c9_toggle_keys_pass_through "/r" "/t" _ _ _ _ hwf ?_ "binary_controls"
    (by decide)
    [("read_extra_binary_controls_inlist1", PyVal.scalar (.bool true))] (by decide)
    "read_extra_binary_controls_inlist1"
    (PyVal.scalar (.bool true)) (by decide) (by decide)
  intro nl hnl opts hopts
  simp only [List.mem_singleton] at hnl
  subst hnl
  simp only [dget, if_pos] at hopts
  cases hopts
  decide

/-! ### Decimal rendering facts and identifier injectivity -/

theorem digitVal_digitChar : ∀ n, n < 10 → digitVal (digitChar n) = n := by decide

theorem digitsToNat_append_digit (xs : List Char) (c : Char) :
    digitsToNat (xs ++ [c]) = digitsToNat xs * 10 + digitVal c := by
  unfold digitsToNat
  rw [List.foldl_append]
  rfl

theorem digitsToNat_natToCharsAux :
    ∀ fuel n, n < fuel → digitsToNat (natToCharsAux fuel n) = n := by
  intro fuel
  induction fuel with
  | zero => intro n h; omega
  | succ fuel ih =>
    intro n h
    unfold natToCharsAux
    by_cases h10 : n < 10
    · simp only [h10, if_true]
      show digitsToNat [digitChar n] = n
      have h1 : digitsToNat [digitChar n] = 0 * 10 + digitVal (digitChar n) := rfl
      rw [h1, digitVal_digitChar n h10]
      omega
    · simp only [h10, if_false]
      rw [digitsToNat_append_digit, ih (n / 10) (by omega),
        digitVal_digitChar (n % 10) (by omega)]
      omega

theorem digitsToNat_natToChars (n : Nat) : digitsToNat (natToChars n) = n :=
  digitsToNat_natToCharsAux (n + 1) n (by omega)

theorem natToChars_injective : Function.Injective natToChars := by
  intro a b h
  have ha := digitsToNat_natToChars a
  rw [h, digitsToNat_natToChars] at ha
  omega

theorem idStr_injective : Function.Injective idStr := by
  intro a b h
  apply natToChars_injective
  have : (idStr a).data = (idStr b).data := by rw [h]
  simpa [idStr] using this

/-! ### Generic dictionary-fold lemmas -/

theorem dhasKey_of_mem {κ α : Type} [DecidableEq κ] {d : PyDict κ α} {k : κ} {v : α}
    (h : (k, v) ∈ d) : dhasKey d k = true := by
  induction d with
  | nil => cases h
  | cons hd tl ih =>
    obtain ⟨k', v'⟩ := hd
    rcases List.mem_cons.mp h with h' | h'
    · cases h'; simp [dhasKey]
    · by_cases h2 : k' = k <;> simp [dhasKey, h2, ih h']

theorem dhasKey_dset {κ α : Type} [DecidableEq κ] (d : PyDict κ α) (k k' : κ) (v : α)
    (h : dhasKey d k' = true) : dhasKey (dset d k v) k' = true := by
  induction d with
  | nil => simp [dhasKey] at h
  | cons hd tl ih =>
    obtain ⟨k'', v''⟩ := hd
    by_cases h2 : k'' = k
    · subst h2
      by_cases h3 : k'' = k' <;> simp_all [dhasKey, dset]
    · by_cases h3 : k'' = k' <;> simp_all [dhasKey, dset]

theorem dset_length {κ α : Type} [DecidableEq κ] (d : PyDict κ α) (k : κ) (v : α) :
    (dset d k v).length = if dhasKey d k then d.length else d.length + 1 := by
  induction d with
  | nil => simp [dset, dhasKey]
  | cons hd tl ih =>
    obtain ⟨k', v'⟩ := hd
    by_cases h2 : k' = k
    · simp [dset, dhasKey, h2]
    · simp only [dset, dhasKey, if_neg h2, List.length_cons, ih]
      by_cases h3 : dhasKey tl k <;> simp [h3]

theorem dset_eq_append_of_not_hasKey {κ α : Type} [DecidableEq κ]
    (d : PyDict κ α) (k : κ) (v : α) (h : dhasKey d k = false) :
    dset d k v = d ++ [(k, v)] := by
  induction d with
  | nil => simp [dset]
  | cons hd tl ih =>
    obtain ⟨k', v'⟩ := hd
    by_cases h2 : k' = k
    · simp [dhasKey, h2] at h
    · simp only [dhasKey, if_neg h2] at h
      simp [dset, h2, ih h]

theorem dkeys_append {κ α : Type} (d e : PyDict κ α) :
    dkeys (d ++ e) = dkeys d ++ dkeys e := by
  simp [dkeys]

theorem dkeys_nodup_dset {κ α : Type} [DecidableEq κ] (d : PyDict κ α) (k : κ) (v : α)
    (h : (dkeys d).Nodup) : (dkeys (dset d k v)).Nodup := by
  cases hk : dhasKey d k
  · rw [dset_eq_append_of_not_hasKey d k v hk, dkeys_append]
    simp only [dkeys, List.map_cons, List.map_nil]
    rw [List.nodup_append]
    refine ⟨h, List.nodup_singleton k, ?_⟩
    intro a ha hb
    simp only [List.mem_singleton] at hb
    subst hb
    obtain ⟨⟨k', v'⟩, hmem, hfst⟩ := List.mem_map.mp ha
    simp only at hfst
    subst hfst
    rw [dhasKey_of_mem hmem] at hk
    cases hk
  · rw [dkeys_dset_of_hasKey d k v hk]
    exact h

theorem hasKey_iff_mem_dkeys {κ α : Type} [DecidableEq κ] (d : PyDict κ α) (k : κ) :
    dhasKey d k = true ↔ k ∈ dkeys d := by
  induction d with
  | nil => simp [dhasKey]
  | cons hd tl ih =>
    obtain ⟨k', v'⟩ := hd
    by_cases h2 : k' = k
    · simp [dhasKey, h2, ih]
    · simp [dhasKey, h2, ih]
      exact fun h => absurd h.symm h2

theorem foldl_dset_eq_append {κ α : Type} [DecidableEq κ] :
    ∀ (ps : List (κ × α)) (acc : PyDict κ α),
      (ps.map Prod.fst).Nodup →
      (∀ k ∈ ps.map Prod.fst, dhasKey acc k = false) →
      ps.foldl (fun a kv => dset a kv.1 kv.2) acc = acc ++ ps := by
  intro ps
  induction ps with
  | nil => intro acc _ _; simp
  | cons kv rest ih =>
    intro acc hnodup hfresh
    obtain ⟨k, v⟩ := kv
    simp only [List.map_cons, List.nodup_cons] at hnodup
    rw [List.foldl_cons]
    show rest.foldl (fun a kv => dset a kv.1 kv.2) (dset acc k v) = acc ++ (k, v) :: rest
    rw [dset_eq_append_of_not_hasKey acc k v (hfresh k (by simp)), ih]
    · simp
    · exact hnodup.2
    · intro k' hk'
      have hne : k ≠ k' := fun h => hnodup.1 (h ▸ hk')
      have h1 : dhasKey acc k' = false := hfresh k' (List.mem_cons_of_mem _ hk')
      cases h2 : dhasKey (acc ++ [(k, v)]) k'
      · rfl
      · rw [hasKey_iff_mem_dkeys, dkeys_append] at h2
        rcases List.mem_append.mp h2 with h3 | h3
        · rw [(hasKey_iff_mem_dkeys acc k').mpr h3] at h1
          cases h1
        · simp only [dkeys, List.map_cons, List.map_nil, List.mem_singleton] at h3
          exact absurd h3.symm hne

theorem foldl_length_le {κ α : Type} [DecidableEq κ] :
    ∀ (ps : List (κ × α)) (acc : PyDict κ α),
      (ps.foldl (fun a kv => dset a kv.1 kv.2) acc).length ≤ acc.length + ps.length := by
  intro ps
  induction ps with
  | nil => intro acc; simp
  | cons kv rest ih =>
    intro acc
    rw [List.foldl_cons]
    refine le_trans (ih _) ?_
    rw [dset_length]
    by_cases h : dhasKey acc kv.1 <;> simp [h, List.length_cons] <;> omega

theorem foldl_length_lt_of_hasKey {κ α : Type} [DecidableEq κ] :
    ∀ (ps : List (κ × α)) (acc : PyDict κ α) (k : κ),
      dhasKey acc k = true → k ∈ ps.map Prod.fst →
      (ps.foldl (fun a kv => dset a kv.1 kv.2) acc).length + 1 ≤ acc.length + ps.length := by
  intro ps
  induction ps with
  | nil => intro acc k _ h; cases h
  | cons kv rest ih =>
    intro acc k hk hmem
    rw [List.foldl_cons]
    rcases List.mem_cons.mp hmem with h | h
    · have : (dset acc kv.1 kv.2).length = acc.length := by
        rw [dset_length, if_pos (h ▸ hk)]
      calc (rest.foldl (fun a kv => dset a kv.1 kv.2) (dset acc kv.1 kv.2)).length + 1
          ≤ ((dset acc kv.1 kv.2).length + rest.length) + 1 := by
            have := foldl_length_le rest (dset acc kv.1 kv.2); omega
        _ = acc.length + (kv :: rest).length := by rw [this, List.length_cons]; omega
    · have hk' : dhasKey (dset acc kv.1 kv.2) k = true := dhasKey_dset acc kv.1 k kv.2 hk
      refine le_trans (ih (dset acc kv.1 kv.2) k hk' h) ?_
      rw [dset_length]
      by_cases h2 : dhasKey acc kv.1 <;> simp [h2, List.length_cons] <;> omega

theorem foldl_length_lt_of_dup {κ α : Type} [DecidableEq κ] :
    ∀ (ps : List (κ × α)) (acc : PyDict κ α),
      ¬ (ps.map Prod.fst).Nodup →
      (ps.foldl (fun a kv => dset a kv.1 kv.2) acc).length < acc.length + ps.length := by
  intro ps
  induction ps with
  | nil => intro acc h; exact absurd List.nodup_nil h
  | cons kv rest ih =>
    intro acc hdup
    rw [List.foldl_cons]
    by_cases hrest : (rest.map Prod.fst).Nodup
    · have hmem : kv.1 ∈ rest.map Prod.fst := by
        by_contra hmem
        exact hdup (List.nodup_cons.mpr ⟨by simpa using hmem, hrest⟩)
      have hk : dhasKey (dset acc kv.1 kv.2) kv.1 = true := by
        rw [dhasKey_iff_isSome, dget_dset_self]
        rfl
      have := foldl_length_lt_of_hasKey rest (dset acc kv.1 kv.2) kv.1 hk hmem
      rw [dset_length] at this
      by_cases h2 : dhasKey acc kv.1 <;> simp [h2] at this <;> simp <;> omega
    · have := ih (dset acc kv.1 kv.2) hrest
      rw [dset_length] at this
      by_cases h2 : dhasKey acc kv.1 <;> simp [h2] at this <;> simp <;> omega

/-! ### Cartesian-product row lemmas -/

theorem prodLex_length {α : Type} : ∀ ls : List (List α),
    (prodLex ls).length = (ls.map List.length).prod := by
  intro ls
  induction ls with
  | nil => rfl
  | cons l rest ih =>
    have aux : ∀ xs : List α,
        (xs.flatMap fun x => (prodLex rest).map (x :: ·)).length =
          xs.length * (prodLex rest).length := by
      intro xs
      induction xs with
      | nil => simp
      | cons x xs ihx => simp [ihx, Nat.succ_mul, Nat.add_comm]
    simp [prodLex, aux, ih]

theorem prodLex_row_length {α : Type} : ∀ (ls : List (List α)) (row : List α),
    row ∈ prodLex ls → row.length = ls.length := by
  intro ls
  induction ls with
  | nil =>
    intro row h
    simp only [prodLex, List.mem_singleton] at h
    subst h
    rfl
  | cons l rest ih =>
    intro row h
    simp only [prodLex, List.mem_flatMap, List.mem_map] at h
    obtain ⟨x, hx, r, hr, rfl⟩ := h
    simp [ih r hr]

theorem prodLex_singletons {α : Type} : ∀ ls : List α,
    prodLex (ls.map fun x => [x]) = [ls] := by
  intro ls
  induction ls with
  | nil => rfl
  | cons x rest ih => simp [prodLex, ih]

theorem swapHead_length {α : Type} (l : List α) : (swapHead l).length = l.length := by
  cases l with
  | nil => rfl
  | cons x rest => cases rest <;> rfl

theorem meshgridRows_ok (lists : List (List PyVal)) (h : lists ≠ []) :
    ∃ rows, meshgridRows lists = .ok rows ∧
      rows.length = (lists.map List.length).prod ∧
      ∀ row ∈ rows, row.length = lists.length := by
  cases lists with
  | nil => exact absurd rfl h
  | cons l1 rest =>
    cases rest with
    | nil =>
      refine ⟨l1.map fun x => [x], rfl, by simp, ?_⟩
      intro row hrow
      obtain ⟨x, -, rfl⟩ := List.mem_map.mp hrow
      rfl
    | cons l2 rest2 =>
      refine ⟨(prodLex (l2 :: l1 :: rest2)).map swapHead, rfl, ?_, ?_⟩
      · rw [List.length_map, prodLex_length]
        simp [Nat.mul_left_comm, Nat.mul_comm, Nat.mul_assoc]
      · intro row hrow
        obtain ⟨r, hr, rfl⟩ := List.mem_map.mp hrow
        rw [swapHead_length, prodLex_row_length _ r hr]
        simp

theorem meshgridRows_singletons (vs : List PyVal) (h : vs ≠ []) :
    meshgridRows (vs.map fun v => [v]) = .ok [vs] := by
  cases vs with
  | nil => exact absurd rfl h
  | cons v1 rest =>
    cases rest with
    | nil => rfl
    | cons v2 rest2 =>
      show Except.ok ((prodLex ([v2] :: [v1] :: rest2.map fun v => [v])).map swapHead) = _
      have : [v2] :: [v1] :: rest2.map (fun v => [v]) =
          (v2 :: v1 :: rest2).map fun v => [v] := by simp
      rw [this, prodLex_singletons]
      rfl

/-! ### `tmpDict` and the flattened grid pairs -/

theorem foldl_mul_eq (l : List (String × PyVal)) (w : String × PyVal → Nat) :
    ∀ n0 : Nat, l.foldl (fun n x => n * w x) n0 = n0 * (l.map w).prod := by
  induction l with
  | nil => intro n0; simp
  | cons x rest ih =>
    intro n0
    simp [ih, Nat.mul_assoc]

theorem tmpValuesDict_eq_foldl (d : GridSpec) :
    tmpValuesDict d = (gridPairs d).foldl (fun a kv => dset a kv.1 kv.2) [] := by
  unfold tmpValuesDict gridPairs
  have aux : ∀ (l : GridSpec) (acc : PyDict String (List PyVal)),
      l.foldl (fun td gp =>
        gp.2.foldl (fun td ov => dset td ov.1 (wrapValues ov.2)) td) acc =
      (l.flatMap fun gp => gp.2.map fun ov => (ov.1, wrapValues ov.2)).foldl
        (fun a kv => dset a kv.1 kv.2) acc := by
    intro l
    induction l with
    | nil => intro acc; rfl
    | cons gp rest ih =>
      intro acc
      rw [List.foldl_cons, List.flatMap_cons, List.foldl_append, ih, List.foldl_map]
  exact aux d []

theorem optionNames_eq_map_fst (d : GridSpec) :
    optionNames d = (gridPairs d).map Prod.fst := by
  unfold optionNames gridPairs dkeys
  rw [List.map_flatMap]
  congr 1
  funext gp
  rw [List.map_map]
  rfl

theorem wrapValues_length (v : PyVal) :
    (wrapValues v).length = match v with | .list xs => xs.length | _ => 1 := by
  cases v <;> simp [wrapValues]

theorem gridPairs_lengths_prod (d : GridSpec) :
    ((gridPairs d).map fun kv => kv.2.length).prod = specGridpointCount d := by
  unfold gridPairs specGridpointCount
  rw [List.map_flatMap]
  congr 1
  congr 1
  funext gp
  rw [List.map_map]
  congr 1
  funext ov
  exact wrapValues_length ov.2

theorem get_number_inner_foldl (options : PyDict String PyVal) :
    ∀ n0 : Nat,
      options.foldl (fun n ov =>
        match ov.2 with
        | PyVal.list xs => n * xs.length
        | _ => n) n0 =
      n0 * (options.map fun ov =>
        match ov.2 with
        | PyVal.list xs => xs.length
        | _ => 1).prod := by
  induction options with
  | nil => intro n0; simp
  | cons ov rest ih =>
    intro n0
    rw [List.foldl_cons, List.map_cons, List.prod_cons, ih]
    have hstep : (match ov.2 with
        | PyVal.list xs => n0 * xs.length
        | _ => n0) =
        n0 * (match ov.2 with
        | PyVal.list xs => xs.length
        | _ => 1) := by
      cases ov.2 <;> simp
    rw [hstep, Nat.mul_assoc]

theorem get_number_eq_spec (d : GridSpec) :
    get_number_of_gridpoints d = specGridpointCount d := by
  unfold get_number_of_gridpoints specGridpointCount
  have aux : ∀ (l : GridSpec) (n0 : Nat),
      l.foldl (fun n gp => gp.2.foldl (fun n ov =>
        match ov.2 with
        | PyVal.list xs => n * xs.length
        | _ => n) n) n0 =
      n0 * (l.flatMap fun gp => gp.2.map fun ov =>
        match ov.2 with
        | PyVal.list xs => xs.length
        | _ => 1).prod := by
    intro l
    induction l with
    | nil => intro n0; simp
    | cons gp rest ih =>
      intro n0
      rw [List.foldl_cons, List.flatMap_cons, List.prod_append, ih,
        get_number_inner_foldl]
      ring
  have := aux d 1
  simpa using this

/-! ### Fill-loop lemmas -/

theorem fillRowAux_ok (row : List PyVal) :
    ∀ (names : List String) (j : Nat) (acc : RunMapping),
      j + names.length ≤ row.length →
      fillRowAux row names j acc =
        .ok ((names.zip (row.drop j)).foldl (fun m kv => dset m kv.1 kv.2) acc) := by
  intro names
  induction names with
  | nil =>
    intro j acc _
    simp [fillRowAux]
  | cons name rest ih =>
    intro j acc h
    rw [List.length_cons] at h
    have hj : j < row.length := by omega
    unfold fillRowAux
    rw [List.get?_eq_get hj]
    show fillRowAux row rest (j + 1) (dset acc name (row.get ⟨j, hj⟩)) = _
    rw [ih (j + 1) (dset acc name (row.get ⟨j, hj⟩)) (by omega),
      List.drop_eq_get_cons hj]
    rfl

theorem fillRowAux_err (row : List PyVal) :
    ∀ (names : List String) (j : Nat) (acc : RunMapping),
      j ≤ row.length → row.length < j + names.length →
      fillRowAux row names j acc = .error "IndexError: index out of bounds for axis 0" := by
  intro names
  induction names with
  | nil =>
    intro j acc h1 h2
    simp at h2
    omega
  | cons name rest ih =>
    intro j acc h1 h2
    rw [List.length_cons] at h2
    unfold fillRowAux
    by_cases hj : j < row.length
    · rw [List.get?_eq_get hj]
      exact ih (j + 1) _ (by omega) (by omega)
    · rw [List.get?_eq_none.mpr (by omega)]

theorem fillMeshgridAux_ok (names : List String) :
    ∀ (rows : List (List PyVal)) (k : Nat) (mg : Meshgrid),
      (∀ row ∈ rows, names.length ≤ row.length) →
      (∀ i, i < rows.length → dhasKey mg (idStr (k + i)) = true) →
      ∃ mg', fillMeshgridAux names rows k mg = .ok mg' ∧ dkeys mg' = dkeys mg := by
  intro rows
  induction rows with
  | nil => exact fun k mg _ _ => ⟨mg, rfl, rfl⟩
  | cons row rest ih =>
    intro k mg hlen hkeys
    have hk : dhasKey mg (idStr k) = true := by
      have := hkeys 0 (by simp)
      simpa using this
    obtain ⟨mk, hmk⟩ : ∃ mk, dget mg (idStr k) = some mk := by
      rw [dhasKey_iff_isSome] at hk
      exact Option.isSome_iff_exists.mp hk
    obtain ⟨mg', hmg', hkeys'⟩ :=
      ih (k + 1) (dset mg (idStr k)
        ((names.zip (row.drop 0)).foldl (fun m kv => dset m kv.1 kv.2) mk))
        (fun r hr => hlen r (List.mem_cons_of_mem _ hr))
        (fun i hi => by
          refine dhasKey_dset mg (idStr k) (idStr (k + 1 + i)) _ ?_
          have := hkeys (i + 1) (by simpa using Nat.succ_lt_succ hi)
          have harith : k + (i + 1) = k + 1 + i := by omega
          rwa [harith] at this)
    refine ⟨mg', ?_, ?_⟩
    · unfold fillMeshgridAux
      rw [hmk]
      show (match fillRow names row mk with
        | Except.ok mk' => fillMeshgridAux names rest (k + 1) (dset mg (idStr k) mk')
        | Except.error e => Except.error e) = Except.ok mg'
      unfold fillRow
      rw [fillRowAux_ok row names 0 mk
        (by simpa using hlen row (List.mem_cons_self _ _))]
      exact hmg'
    · rw [hkeys', dkeys_dset_of_hasKey mg (idStr k) _ hk]

/-! ### Condition-filtering lemmas -/

theorem keysToPop_nil_conds (mg : Meshgrid) : keysToPop [] mg = [] := by
  unfold keysToPop
  induction mg with
  | nil => rfl
  | cons km rest ih => simpa [List.flatMap_cons] using ih

theorem applyConditions_nil (mg : Meshgrid) : applyConditions [] mg = .ok mg := by
  unfold applyConditions
  rw [keysToPop_nil_conds]
  rfl

theorem dremove_eq_filter {κ α : Type} [DecidableEq κ] (g : PyDict κ α) (k : κ)
    (h : (dkeys g).Nodup) :
    dremove g k = g.filter fun kv => decide (kv.1 ≠ k) := by
  induction g with
  | nil => rfl
  | cons kv rest ih =>
    obtain ⟨k', v'⟩ := kv
    simp only [dkeys_cons, List.nodup_cons] at h
    by_cases h2 : k' = k
    · subst h2
      have hrest : List.filter (fun kv => decide (kv.1 ≠ k')) rest = rest := by
        apply List.filter_eq_self.mpr
        intro kv hkv
        simp only [ne_eq, decide_eq_true_eq]
        intro hk
        exact h.1 (hk ▸ List.mem_map.mpr ⟨kv, hkv, rfl⟩)
      show (if k' = k' then rest else (k', v') :: dremove rest k') =
        List.filter (fun kv => decide (kv.1 ≠ k')) ((k', v') :: rest)
      rw [if_pos rfl, List.filter_cons, if_neg (by simp), hrest]
    · show (if k' = k then rest else (k', v') :: dremove rest k) =
        List.filter (fun kv => decide (kv.1 ≠ k)) ((k', v') :: rest)
      rw [if_neg h2, List.filter_cons, if_pos (by simp [h2]), ih h.2]

theorem dhasKey_filter_of_mem {κ α : Type} [DecidableEq κ] (g : PyDict κ α)
    (p : κ × α → Bool) (k : κ) (h : dhasKey (g.filter p) k = true) :
    dhasKey g k = true := by
  rw [hasKey_iff_mem_dkeys] at h ⊢
  obtain ⟨kv, hkv, rfl⟩ := List.mem_map.mp h
  exact List.mem_map.mpr ⟨kv, List.mem_of_mem_filter hkv, rfl⟩

theorem popAll_ok : ∀ (ks : List String) (g : Meshgrid),
      (dkeys g).Nodup → ks.Nodup → (∀ k ∈ ks, dhasKey g k = true) →
      ks.foldlM popStep g = .ok (g.filter fun kv => decide (kv.1 ∉ ks)) := by
  intro ks
  induction ks with
  | nil =>
    intro g _ _ _
    have h : g.filter (fun kv => decide (kv.1 ∉ ([] : List String))) = g := by
      apply List.filter_eq_self.mpr
      intro kv _
      simp
    rw [h]
    rfl
  | cons k ks' ih =>
    intro g hgnd hknd hin
    rw [List.foldlM_cons]
    have h1 : popStep g k = .ok (dremove g k) := by
      unfold popStep
      rw [if_pos (hin k (List.mem_cons_self _ _))]
    rw [h1]
    have hstep : (Except.ok (dremove g k) >>= fun mg => ks'.foldlM popStep mg) =
        ks'.foldlM popStep (dremove g k) := rfl
    rw [hstep, dremove_eq_filter g k hgnd]
    have hnd' : (dkeys (g.filter fun kv => decide (kv.1 ≠ k))).Nodup :=
      hgnd.sublist ((g.filter_sublist).map _)
    have hin' : ∀ k' ∈ ks',
        dhasKey (g.filter fun kv => decide (kv.1 ≠ k)) k' = true := by
      intro k' hk'
      have hne : k' ≠ k := fun h => (List.nodup_cons.mp hknd).1 (h ▸ hk')
      have hmem := hin k' (List.mem_cons_of_mem _ hk')
      rw [hasKey_iff_mem_dkeys] at hmem
      obtain ⟨kv, hkv, hfst⟩ := List.mem_map.mp hmem
      have hf : kv ∈ g.filter fun kv => decide (kv.1 ≠ k) :=
        List.mem_filter.mpr ⟨hkv, by simp [hfst, hne]⟩
      rw [hasKey_iff_mem_dkeys]
      exact List.mem_map.mpr ⟨kv, hf, hfst⟩
    rw [ih _ hnd' (List.nodup_cons.mp hknd).2 hin']
    congr 1
    rw [List.filter_filter]
    apply List.filter_congr
    intro kv _
    by_cases h1 : kv.1 = k <;> by_cases h2 : kv.1 ∈ ks' <;> simp [h1, h2]

theorem keysToPop_eq_filter_map (conds : List (RunMapping → Bool)) :
    ∀ mg : Meshgrid,
      (∀ km ∈ mg, (conds.filter fun c => c km.2).length ≤ 1) →
      keysToPop conds mg =
        (mg.filter fun km => conds.any fun c => c km.2).map Prod.fst := by
  intro mg
  induction mg with
  | nil => intro _; rfl
  | cons km rest ih =>
    intro hone
    unfold keysToPop
    rw [List.flatMap_cons, List.filter_cons]
    cases hany : conds.any fun c => c km.2
    · have hnil : conds.filter (fun c => c km.2) = [] := by
        apply List.filter_eq_nil_iff.mpr
        intro c hc
        intro hsat
        rw [Bool.eq_false_iff] at hany
        exact hany (List.any_eq_true.mpr ⟨c, hc, hsat⟩)
      rw [hnil]
      simpa [keysToPop] using ih fun km' h => hone km' (List.mem_cons_of_mem _ h)
    · obtain ⟨c, hc, hsat⟩ := List.any_eq_true.mp hany
      have hlen1 : (conds.filter fun c => c km.2).length = 1 := by
        have hle := hone km (List.mem_cons_self _ _)
        have hpos : 0 < (conds.filter fun c => c km.2).length :=
          List.length_pos.mpr (by
            intro hnil
            have := List.filter_eq_nil_iff.mp hnil c hc
            exact this hsat)
        exact Nat.le_antisymm hle hpos
      obtain ⟨c0, hc0⟩ := List.length_eq_one.mp hlen1
      rw [hc0]
      simp only [List.map_cons, List.map_nil]
      have := ih fun km' h => hone km' (List.mem_cons_of_mem _ h)
      unfold keysToPop at this
      rw [this]
      rfl

theorem mem_dset {κ α : Type} [DecidableEq κ] :
    ∀ (d : PyDict κ α) (k : κ) (v : α) (kv : κ × α),
      kv ∈ dset d k v → kv ∈ d ∨ kv = (k, v) := by
  intro d
  induction d with
  | nil =>
    intro k v kv h
    have h2 : kv ∈ [(k, v)] := h
    exact Or.inr (List.mem_singleton.mp h2)
  | cons hd tl ih =>
    intro k v kv h
    obtain ⟨k', v'⟩ := hd
    have h3 : kv ∈ if k' = k then (k', v) :: tl else (k', v') :: dset tl k v := h
    by_cases h2 : k' = k
    · rw [if_pos h2] at h3
      rcases List.mem_cons.mp h3 with h4 | h4
      · subst h2; exact Or.inr h4
      · exact Or.inl (List.mem_cons_of_mem _ h4)
    · rw [if_neg h2] at h3
      rcases List.mem_cons.mp h3 with h4 | h4
      · exact Or.inl (List.mem_cons.mpr (Or.inl h4))
      · rcases ih k v kv h4 with h5 | h5
        · exact Or.inl (List.mem_cons_of_mem _ h5)
        · exact Or.inr h5

theorem mem_foldl_dset {κ α : Type} [DecidableEq κ] :
    ∀ (ps : List (κ × α)) (acc : PyDict κ α) (kv : κ × α),
      kv ∈ ps.foldl (fun a p => dset a p.1 p.2) acc → kv ∈ acc ∨ kv ∈ ps := by
  intro ps
  induction ps with
  | nil => intro acc kv h; exact Or.inl h
  | cons p rest ih =>
    intro acc kv h
    rw [List.foldl_cons] at h
    rcases ih (dset acc p.1 p.2) kv h with h2 | h2
    · rcases mem_dset acc p.1 p.2 kv h2 with h3 | h3
      · exact Or.inl h3
      · exact Or.inr (h3 ▸ List.mem_cons_self _ _)
    · exact Or.inr (List.mem_cons_of_mem _ h2)

theorem foldl_dset_ne_nil {κ α : Type} [DecidableEq κ] :
    ∀ (ps : List (κ × α)) (acc : PyDict κ α), acc ≠ [] →
      ps.foldl (fun a p => dset a p.1 p.2) acc ≠ [] := by
  intro ps
  induction ps with
  | nil => exact fun acc h => h
  | cons p rest ih =>
    intro acc hacc
    rw [List.foldl_cons]
    refine ih _ ?_
    cases acc with
    | nil => exact absurd rfl hacc
    | cons a rest2 =>
      obtain ⟨k', v'⟩ := a
      by_cases h2 : k' = p.1 <;> simp [dset, h2]

theorem fillMeshgridAux_keys (names : List String) :
    ∀ (rows : List (List PyVal)) (k : Nat) (mg mg' : Meshgrid),
      fillMeshgridAux names rows k mg = .ok mg' → dkeys mg' = dkeys mg := by
  intro rows
  induction rows with
  | nil =>
    intro k mg mg' h
    cases h
    rfl
  | cons row rest ih =>
    intro k mg mg' h
    unfold fillMeshgridAux at h
    cases hd : dget mg (idStr k) with
    | none => rw [hd] at h; cases h
    | some mk =>
      rw [hd] at h
      have h2 : (match fillRow names row mk with
          | Except.ok mk2 => fillMeshgridAux names rest (k + 1) (dset mg (idStr k) mk2)
          | Except.error e => Except.error e) = Except.ok mg' := h
      cases hf : fillRow names row mk with
      | error e => rw [hf] at h2; cases h2
      | ok mk' =>
        rw [hf] at h2
        have hkey : dhasKey mg (idStr k) = true := by
          rw [dhasKey_iff_isSome, hd]; rfl
        rw [ih (k + 1) _ mg' h2, dkeys_dset_of_hasKey mg (idStr k) mk' hkey]

/-- `create_meshgrid_from_dict` as its bind chain. -/
theorem create_meshgrid_eq (d : GridSpec) (conds : List (RunMapping → Bool)) :
    create_meshgrid_from_dict d conds =
      (meshgridRows ((tmpValuesDict d).map (·.2))).bind fun rows =>
        (fillMeshgrid (optionNames d) rows
          ((List.range (get_number_of_gridpoints d)).map fun k => (idStr k, []))).bind
          (applyConditions conds) := rfl

theorem gridPairs_eq_map_flatOptions (d : GridSpec) :
    gridPairs d = (flatOptions d).map fun ov => (ov.1, wrapValues ov.2) := by
  unfold gridPairs flatOptions
  rw [List.map_flatMap]

/-! ## Claim C7 (confirmed): the distinguished parse error and its catch -/

/-- C7: the scalar literal parser raises the distinguished
`NoSingleValueFoundException` exactly when the token matches none of the
literal grammars (integer, float with `d`/`e` exponent, parenthesised complex
pair, either boolean token spelling, quoted string); the namelist parser's
line handler catches exactly that error — switching to the inline-array
fallback — while any other parse failure propagates. -/
theorem c7_value_not_parsed_iff_no_grammar (v : List Char)
    (group : PyDict String PyVal) (name : String) (idx : Option Int) :
    ((parseFortranValueToPython v = .error (.noSingleValue v)) ↔
      ¬(matchesIntegerGrammar v ∨ matchesFloatGrammar v ∨
        matchesComplexPairGrammar v ∨ matchesBooleanGrammar v ∨
        matchesQuotedStringGrammar v)) ∧
    (parseFortranValueToPython v = .error (.noSingleValue v) →
      processAssignment group name idx v = inlineArrayFallback group name v) ∧
    (∀ m, parseFortranValueToPython v = .error (.fatal m) →
      processAssignment group name idx v = .error (.fatal m)) := by
  refine ⟨?_, ?_, ?_⟩
  · unfold parseFortranValueToPython matchesIntegerGrammar matchesFloatGrammar
      matchesComplexPairGrammar matchesBooleanGrammar matchesQuotedStringGrammar
    cases hint : parsePyInt v with
    | some n => simp [hint]
    | none =>
      cases hfl : parsePyFloat (replaceChar 'd' 'E' v) with
      | some q => simp [hint, hfl]
      | none =>
        cases hcx : complexFindall v with
        | some ab =>
          obtain ⟨a, b⟩ := ab
          cases hpa : parsePyFloat a with
          | some x =>
            cases hpb : parsePyFloat b with
            | some y => simp [hint, hfl, hcx, hpa, hpb]
            | none => simp [hint, hfl, hcx, hpa, hpb]
          | none => simp [hint, hfl, hcx, hpa]
        | none =>
          by_cases hb1 : v = ".true.".data ∨ v = "T".data
          · rcases hb1 with h | h <;> subst h <;> decide
          · by_cases hb2 : v = ".false.".data ∨ v = "F".data
            · rcases hb2 with h | h <;> subst h <;> decide
            · by_cases hq1 : isQuotedBy '\'' v = true
              · simp [hint, hfl, hcx, hb1, hb2, hq1]
              · by_cases hq2 : isQuotedBy '"' v = true
                · simp [hint, hfl, hcx, hb1, hb2, hq1, hq2]
                · simp [hint, hfl, hcx, hb1, hb2, hq1, hq2]
  · intro h
    unfold processAssignment
    rw [h]
  · intro m h
    unfold processAssignment
    rw [h]

/-- C7 witness: `"3 4"` matches no literal grammar, raises the distinguished
error, and the line handler switches to the inline-array fallback on it. -/
theorem c7_witness :
    parseFortranValueToPython "3 4".data = .error (.noSingleValue "3 4".data) ∧
      processAssignment [] "xs" none "3 4".data =
        inlineArrayFallback [] "xs" "3 4".data := by
  have h1 : parseFortranValueToPython "3 4".data =
      .error (.noSingleValue "3 4".data) := by decide
  exact ⟨h1, (c7_value_not_parsed_iff_no_grammar "3 4".data [] "xs" none).2.1 h1⟩

/-! ## Claim C6 (confirmed): exact serialization of a single-float group -/

/-- C6: serializing the single-group mapping
`{controls: {mixing_length_alpha: 1.5}}` in non-inline mode produces exactly
`"&controls\n   mixing_length_alpha = 1.5000000000d+00\n/ ! end of controls namelist\n"`
(floats render in scientific notation with 10 fractional digits and a `d`
exponent marker), and an empty group emits only the open and close marker
lines with no body. -/
theorem c6_serialize_single_float_exact :
    dumpDictToNamelistString [("mixing_length_alpha", .scalar (.real (3 / 2)))]
        "controls" false =
      .ok "&controls\n   mixing_length_alpha = 1.5000000000d+00\n/ ! end of controls namelist\n".data ∧
    dumpDictToNamelistString [] "controls" false =
      .ok "&controls\n/ ! end of controls namelist\n".data := by
  exact ⟨by with_unfolding_all decide, by with_unfolding_all decide⟩

/-! ## Claim C10 (confirmed): the parser returns only the first group block -/

/-- C10: for every input buffer in which the block finder locates two or more
namelist group blocks, the parser's result is computed from the first block
alone — the source's `return namelists` sits inside the loop over blocks — so
the returned mapping holds one group and no option of any later block can
appear in it. -/
theorem c10_parser_returns_first_group_only (buffer b1 b2 : List Char)
    (bs : List (List Char)) (hne : buffer ≠ [])
    (hblocks : groupBlocksOf buffer = b1 :: b2 :: bs) :
    namelistStringToDict buffer = (processGroupBlock b1).map fun (n, g) => [(n, g)] := by
  unfold namelistStringToDict
  simp [hne, hblocks]

/-- C10 witness: a concrete buffer with two group blocks. -/
theorem c10_witness :
    namelistStringToDict "&a\nx = 1\n/\n&b\ny = 2\n/\n".data =
      (processGroupBlock "a\nx = 1\n".data).map fun (n, g) => [(n, g)] :=
  c10_parser_returns_first_group_only _ "a\nx = 1\n".data "b\ny = 2\n".data []
    (by decide) (by decide)

/-! ## Claim C1 (corrected): identifier enumeration counts -/

/-- C1 counterexample: on the empty grid description the claim predicts
`N = 1` identifier `"0"`, but enumeration raises
(`np.column_stack` of an empty list) and produces no run set at all. -/
theorem c1_counterexample :
    get_number_of_gridpoints [] = 1 ∧
      create_meshgrid_from_dict [] [] =
        .error "ValueError: need at least one array to concatenate" :=
  ⟨rfl, rfl⟩

/-! ## Claim C8 (corrected): duplicate option names across groups -/

/-- C8 counterexample: with the option `x` under two groups the claim predicts
a full combination set with last-write-wins merging, but enumeration raises an
index error: `option_names` keeps the duplicate while `tmpDict` does not, so
the fill loop reads past the end of each grid row. -/
theorem c8_counterexample :
    create_meshgrid_from_dict
        [("a", [("x", .list [.int 1, .int 2])]), ("b", [("x", .list [.int 3, .int 4])])]
        [] =
      .error "IndexError: index out of bounds for axis 0" :=
  rfl

theorem nat_prod_pos : ∀ l : List Nat, (∀ n ∈ l, 0 < n) → 0 < l.prod := by
  intro l
  induction l with
  | nil => intro _; exact Nat.one_pos
  | cons n rest ih =>
    intro h
    rw [List.prod_cons]
    exact Nat.mul_pos (h n (List.mem_cons_self _ _))
      (ih fun m hm => h m (List.mem_cons_of_mem _ hm))

theorem ebind_ok {ε α β : Type} (a : α) (f : α → Except ε β) :
    (Except.ok a : Except ε α).bind f = f a := rfl

theorem ebind_err {ε α β : Type} (e : ε) (f : α → Except ε β) :
    (Except.error e : Except ε α).bind f = .error e := rfl

theorem mem_gridPairs_snd_ne_nil (d : GridSpec)
    (hne : ∀ gp ∈ d, ∀ ov ∈ gp.2, wrapValues ov.2 ≠ []) :
    ∀ kv ∈ gridPairs d, kv.2 ≠ [] := by
  intro kv hkv
  unfold gridPairs at hkv
  rcases List.mem_flatMap.mp hkv with ⟨gp, hgp, hmem⟩
  rcases List.mem_map.mp hmem with ⟨ov, hov, hkv2⟩
  rw [← hkv2]
  exact hne gp hgp ov hov

theorem fillMeshgridAux_head_err (names : List String) (row : List PyVal)
    (rows : List (List PyVal)) (k : Nat) (mg : Meshgrid) (mk : RunMapping) (e : String)
    (hd : dget mg (idStr k) = some mk)
    (hf : fillRow names row mk = .error e) :
    fillMeshgridAux names (row :: rows) k mg = .error e := by
  unfold fillMeshgridAux
  rw [hd]
  have h2 : (match fillRow names row mk with
      | Except.ok mk2 => fillMeshgridAux names rows (k + 1) (dset mg (idStr k) mk2)
      | Except.error e2 => Except.error e2) = Except.error e := by
    rw [hf]
  exact h2

/-- C8 (amended): a duplicated option name across groups does not merge with
last-write-wins — `tmpDict` deduplicates while `option_names` does not, so
(with every wrapped value list nonempty) the fill loop's row index runs past
the row end and the whole enumeration raises `IndexError`. -/
theorem c8_dup_option_names_raise_indexerror (d : GridSpec)
    (conds : List (RunMapping → Bool))
    (hdup : ¬ (optionNames d).Nodup)
    (hne : ∀ gp ∈ d, ∀ ov ∈ gp.2, wrapValues ov.2 ≠ []) :
    create_meshgrid_from_dict d conds =
      .error "IndexError: index out of bounds for axis 0" := by
  have hdup' : ¬ ((gridPairs d).map Prod.fst).Nodup := by
    rw [← optionNames_eq_map_fst]; exact hdup
  have hgpne : gridPairs d ≠ [] := by
    intro h
    apply hdup'
    rw [h]
    exact List.nodup_nil
  have htmpne : tmpValuesDict d ≠ [] := by
    rw [tmpValuesDict_eq_foldl]
    cases hgp : gridPairs d with
    | nil => exact absurd hgp hgpne
    | cons p rest =>
      rw [List.foldl_cons]
      apply foldl_dset_ne_nil
      simp [dset]
  have hgvals := mem_gridPairs_snd_ne_nil d hne
  have hvals : ∀ kv ∈ tmpValuesDict d, kv.2 ≠ [] := by
    intro kv hkv
    rw [tmpValuesDict_eq_foldl] at hkv
    rcases mem_foldl_dset _ _ _ hkv with h | h
    · exact absurd h (List.not_mem_nil kv)
    · exact hgvals kv h
  have hlistne : (tmpValuesDict d).map (·.2) ≠ [] := by
    intro h
    exact htmpne (List.map_eq_nil.mp h)
  obtain ⟨rows, hrows, hrlen, hrowlen⟩ := meshgridRows_ok _ hlistne
  have hrpos : 0 < rows.length := by
    rw [hrlen]
    apply nat_prod_pos
    intro n hn
    rcases List.mem_map.mp hn with ⟨l, hl, rfl⟩
    rcases List.mem_map.mp hl with ⟨kv, hkv, rfl⟩
    exact List.length_pos.mpr (hvals kv hkv)
  cases hrows' : rows with
  | nil => rw [hrows'] at hrpos; exact absurd hrpos (by simp)
  | cons r0 rtail =>
  have hr0len : r0.length < (optionNames d).length := by
    have h1 : r0.length = ((tmpValuesDict d).map (·.2)).length :=
      hrowlen r0 (by rw [hrows']; exact List.mem_cons_self _ _)
    rw [List.length_map] at h1
    have h2 := foldl_length_lt_of_dup (gridPairs d) [] hdup'
    rw [← tmpValuesDict_eq_foldl] at h2
    simp only [List.length_nil, Nat.zero_add] at h2
    rw [optionNames_eq_map_fst, List.length_map]
    omega
  have hNpos : 0 < get_number_of_gridpoints d := by
    rw [get_number_eq_spec, ← gridPairs_lengths_prod]
    apply nat_prod_pos
    intro n hn
    rcases List.mem_map.mp hn with ⟨kv, hkv, rfl⟩
    exact List.length_pos.mpr (hgvals kv hkv)
  obtain ⟨Nm, hNm⟩ : ∃ m, get_number_of_gridpoints d = m + 1 := by
    cases hN : get_number_of_gridpoints d with
    | zero => rw [hN] at hNpos; exact absurd hNpos (by simp)
    | succ m => exact ⟨m, rfl⟩
  have hmg0 : dget ((List.range (get_number_of_gridpoints d)).map
      fun k => (idStr k, ([] : RunMapping))) (idStr 0) = some [] := by
    rw [hNm, List.range_succ_eq_map]
    simp [dget]
  have hrowfail : fillRow (optionNames d) r0 [] =
      .error "IndexError: index out of bounds for axis 0" := by
    unfold fillRow
    exact fillRowAux_err r0 (optionNames d) 0 [] (Nat.zero_le _) (by omega)
  have hfill : fillMeshgrid (optionNames d) rows
      ((List.range (get_number_of_gridpoints d)).map fun k => (idStr k, [])) =
      .error "IndexError: index out of bounds for axis 0" := by
    rw [hrows']
    unfold fillMeshgrid
    exact fillMeshgridAux_head_err _ _ _ _ _ _ _ hmg0 hrowfail
  rw [create_meshgrid_eq, hrows, ebind_ok, hfill, ebind_err]

/-- C8 amended-claim witness: the duplicated option `x` under two groups with
scalar values raises `IndexError` instead of a last-write-wins merge. -/
theorem c8_witness :
    create_meshgrid_from_dict
        [("ctrl1", [("x", PyVal.scalar (PyScalar.int 1))]),
         ("ctrl2", [("x", PyVal.scalar (PyScalar.int 2))])] [] =
      .error "IndexError: index out of bounds for axis 0" :=
  c8_dup_option_names_raise_indexerror _ [] (by decide) (by decide)

theorem emap_ok {ε α β : Type} (f : α → β) (a : α) :
    (Except.ok a : Except ε α).map f = .ok (f a) := rfl

theorem map_congr_mem {α β : Type} (f g : α → β) :
    ∀ l : List α, (∀ a ∈ l, f a = g a) → l.map f = l.map g := by
  intro l
  induction l with
  | nil => intro _; rfl
  | cons a rest ih =>
    intro h
    rw [List.map_cons, List.map_cons, h a (List.mem_cons_self _ _),
      ih fun b hb => h b (List.mem_cons_of_mem _ hb)]

theorem zip_map_proj {α β : Type} : ∀ l : List (α × β),
    (l.map fun p => p.1).zip (l.map fun p => p.2) = l := by
  intro l
  induction l with
  | nil => rfl
  | cons p rest ih => simp [ih]

theorem optionNames_eq_flat (d : GridSpec) :
    optionNames d = (flatOptions d).map fun ov => ov.1 := by
  rw [optionNames_eq_map_fst, gridPairs_eq_map_flatOptions, List.map_map]
  rfl

theorem fillMeshgridAux_head_ok (names : List String) (row : List PyVal)
    (rows : List (List PyVal)) (k : Nat) (mg : Meshgrid) (mk mk' : RunMapping)
    (hd : dget mg (idStr k) = some mk)
    (hf : fillRow names row mk = .ok mk') :
    fillMeshgridAux names (row :: rows) k mg =
      fillMeshgridAux names rows (k + 1) (dset mg (idStr k) mk') := by
  conv_lhs => unfold fillMeshgridAux
  rw [hd]
  have h2 : (match fillRow names row mk with
      | Except.ok mk2 => fillMeshgridAux names rows (k + 1) (dset mg (idStr k) mk2)
      | Except.error e2 => Except.error e2) =
      fillMeshgridAux names rows (k + 1) (dset mg (idStr k) mk') := by
    rw [hf]
  exact h2

theorem tmpValuesDict_eq_gridPairs (d : GridSpec)
    (hnodup : (optionNames d).Nodup) : tmpValuesDict d = gridPairs d := by
  rw [tmpValuesDict_eq_foldl]
  have h := foldl_dset_eq_append (gridPairs d) []
    (by rw [← optionNames_eq_map_fst]; exact hnodup)
    (fun k _ => rfl)
  simpa using h

theorem initial_meshgrid_keys (N : Nat) :
    dkeys ((List.range N).map fun k => (idStr k, ([] : RunMapping))) =
      (List.range N).map idStr := by
  simp only [dkeys, List.map_map]
  rfl

/-- C1 (amended): with pairwise-distinct option names, at least one option,
and homogeneous values, the enumeration succeeds, `get_number_of_gridpoints`
equals the product of the value-list lengths (scalars counting as 1), the run
identifiers are exactly `"0".."N-1"`, and an all-scalar grid yields the single
run `"0"` mapped to the flattened scalars.  (The unamended claim fails on the
empty grid: see the counterexample.) -/
theorem c1_enumeration_counts (d : GridSpec)
    (hhom : homogeneous d = true)
    (hnodup : (optionNames d).Nodup)
    (hne : optionNames d ≠ []) :
    get_number_of_gridpoints d = specGridpointCount d ∧
    (create_meshgrid_from_dict d []).map dkeys =
      .ok ((List.range (specGridpointCount d)).map idStr) ∧
    (gridAllScalar d = true →
      create_meshgrid_from_dict d [] = .ok [(idStr 0, flatOptions d)]) := by
  clear hhom
  have htmp := tmpValuesDict_eq_gridPairs d hnodup
  have hgpne : gridPairs d ≠ [] := by
    intro h
    apply hne
    rw [optionNames_eq_map_fst, h]
    rfl
  have hlistne : (tmpValuesDict d).map (·.2) ≠ [] := by
    rw [htmp]
    intro h
    exact hgpne (List.map_eq_nil.mp h)
  refine ⟨get_number_eq_spec d, ?_, ?_⟩
  · -- identifier enumeration
    obtain ⟨rows, hrows, hrlen, hrowlen⟩ := meshgridRows_ok _ hlistne
    have hrlenN : rows.length = specGridpointCount d := by
      rw [hrlen, htmp, List.map_map]
      exact gridPairs_lengths_prod d
    have hnames : (optionNames d).length = (gridPairs d).length := by
      rw [optionNames_eq_map_fst, List.length_map]
    have hkeys0 := initial_meshgrid_keys (get_number_of_gridpoints d)
    obtain ⟨mg', hmg', hkeys'⟩ := fillMeshgridAux_ok (optionNames d) rows 0
      ((List.range (get_number_of_gridpoints d)).map fun k => (idStr k, []))
      (by
        intro row hrow
        exact Nat.le_of_eq (hnames.trans
          (by rw [hrowlen row hrow, htmp, List.length_map])))
      (by
        intro i hi
        rw [hasKey_iff_mem_dkeys, hkeys0]
        refine List.mem_map.mpr ⟨i, List.mem_range.mpr ?_, by rw [Nat.zero_add]⟩
        rw [get_number_eq_spec, ← hrlenN]
        exact hi)
    rw [create_meshgrid_eq, hrows, ebind_ok]
    unfold fillMeshgrid
    rw [hmg', ebind_ok, applyConditions_nil, emap_ok, hkeys', hkeys0,
      get_number_eq_spec]
  · -- all-scalar case
    intro hscalar
    have hwrap : ∀ ov ∈ flatOptions d, wrapValues ov.2 = [ov.2] := by
      intro ov hov
      rcases List.mem_flatMap.mp hov with ⟨gp, hgp, hov2⟩
      have h1 := List.all_eq_true.mp hscalar gp hgp
      have h2 := List.all_eq_true.mp h1 ov hov2
      cases hv : ov.2 with
      | list xs => rw [hv] at h2; exact absurd h2 (by simp)
      | scalar s => rfl
      | ilist xs => rfl
    have hgp_eq : gridPairs d = (flatOptions d).map fun ov => (ov.1, [ov.2]) := by
      rw [gridPairs_eq_map_flatOptions]
      exact map_congr_mem _ _ _ fun ov hov => by rw [hwrap ov hov]
    have hfne : flatOptions d ≠ [] := by
      intro h
      apply hgpne
      rw [hgp_eq, h]
      rfl
    have hvs_ne : (flatOptions d).map (·.2) ≠ [] := by
      intro h
      exact hfne (List.map_eq_nil.mp h)
    have hlists_eq : (tmpValuesDict d).map (·.2) =
        ((flatOptions d).map (·.2)).map fun x => [x] := by
      rw [htmp, hgp_eq, List.map_map, List.map_map]
      rfl
    have hN1 : get_number_of_gridpoints d = 1 := by
      rw [get_number_eq_spec, ← gridPairs_lengths_prod]
      apply List.prod_eq_one
      intro x hx
      rcases List.mem_map.mp hx with ⟨kv, hkv, rfl⟩
      rw [hgp_eq] at hkv
      rcases List.mem_map.mp hkv with ⟨ov, hov, rfl⟩
      rfl
    have hzip : (optionNames d).zip ((flatOptions d).map (·.2)) = flatOptions d := by
      rw [optionNames_eq_flat]
      exact zip_map_proj _
    have hrowok : fillRow (optionNames d) ((flatOptions d).map (·.2)) [] =
        .ok (flatOptions d) := by
      unfold fillRow
      rw [fillRowAux_ok _ _ 0 []
        (by rw [Nat.zero_add, optionNames_eq_flat, List.length_map, List.length_map])]
      rw [List.drop_zero, hzip]
      have h := foldl_dset_eq_append (flatOptions d) []
        (by
          have h2 := hnodup
          rw [optionNames_eq_flat] at h2
          exact h2)
        (fun k _ => rfl)
      simpa using h
    have hfillS : fillMeshgrid (optionNames d) [(flatOptions d).map (·.2)]
        [(idStr 0, [])] = .ok [(idStr 0, flatOptions d)] := by
      unfold fillMeshgrid
      rw [fillMeshgridAux_head_ok (optionNames d) _ [] 0 [(idStr 0, [])] [] _
        (by simp [dget]) hrowok]
      have hdset : dset [(idStr 0, ([] : RunMapping))] (idStr 0) (flatOptions d) =
          [(idStr 0, flatOptions d)] := by
        simp [dset]
      rw [hdset]
      rfl
    rw [create_meshgrid_eq, hlists_eq, meshgridRows_singletons _ hvs_ne, ebind_ok,
      hN1]
    have hmg0 : ((List.range 1).map fun k => (idStr k, ([] : RunMapping))) =
        [(idStr 0, [])] := rfl
    rw [hmg0, hfillS, ebind_ok]
    exact applyConditions_nil _

/-- C1 amended-claim witness: a two-group scalar grid has one gridpoint and
yields the single run `"0"` holding both scalars. -/
theorem c1_witness :
    get_number_of_gridpoints
        [("a", [("x", PyVal.scalar (PyScalar.int 1))]),
         ("b", [("y", PyVal.scalar (PyScalar.int 2))])] =
      specGridpointCount
        [("a", [("x", PyVal.scalar (PyScalar.int 1))]),
         ("b", [("y", PyVal.scalar (PyScalar.int 2))])] ∧
    create_meshgrid_from_dict
        [("a", [("x", PyVal.scalar (PyScalar.int 1))]),
         ("b", [("y", PyVal.scalar (PyScalar.int 2))])] [] =
      .ok [(idStr 0,
        [("x", PyVal.scalar (PyScalar.int 1)), ("y", PyVal.scalar (PyScalar.int 2))])] :=
  ⟨(c1_enumeration_counts _ (by decide) (by decide) (by decide)).1,
   (c1_enumeration_counts
      [("a", [("x", PyVal.scalar (PyScalar.int 1))]),
       ("b", [("y", PyVal.scalar (PyScalar.int 2))])]
      (by decide) (by decide) (by decide)).2.2 (by decide)⟩

/-! ## Claim C4 (corrected): condition filtering -/

/-- C4 counterexample: when two condition predicates both return true on the
same combination, its key enters `keys_to_pop` twice and the second
`dict.pop` raises `KeyError`, so no result set is produced at all — the claim's
"dropped if and only if some predicate is true" fails for this predicate
list. -/
theorem c4_counterexample :
    create_meshgrid_from_dict [("g", [("x", .list [.int 1, .int 2, .int 3])])]
        [fun m => dget m "x" == some (.scalar (.int 2)),
         fun m => dget m "x" == some (.scalar (.int 2))] =
      .error "KeyError: key already popped from meshgrid" :=
  rfl

/-- C4 (amended): when no combination satisfies more than one condition
predicate, a combination is dropped from the result exactly when some
predicate returns true on its flat mapping, survivors keeping their original
identifiers.  (The unamended claim fails when two predicates hold on
one combination: the double `pop` raises `KeyError` — see the
counterexample.) -/
theorem c4_condition_filtering (d : GridSpec) (conds : List (RunMapping → Bool))
    (runs : Meshgrid)
    (hok : create_meshgrid_from_dict d [] = .ok runs)
    (hone : ∀ km ∈ runs, (conds.filter fun c => c km.2).length ≤ 1) :
    create_meshgrid_from_dict d conds =
      .ok (runs.filter fun km => !(conds.any fun c => c km.2)) := by
  rw [create_meshgrid_eq] at hok ⊢
  cases h1 : meshgridRows ((tmpValuesDict d).map (·.2)) with
  | error e => rw [h1, ebind_err] at hok; cases hok
  | ok rows =>
    rw [h1, ebind_ok] at hok
    rw [ebind_ok]
    cases h2 : fillMeshgrid (optionNames d) rows
        ((List.range (get_number_of_gridpoints d)).map fun k => (idStr k, [])) with
    | error e => rw [h2, ebind_err] at hok; cases hok
    | ok mg =>
      rw [h2, ebind_ok] at hok
      rw [ebind_ok]
      rw [applyConditions_nil] at hok
      injection hok with hok
      subst mg
      -- the run keys are distinct
      have hkeys : dkeys runs =
          (List.range (get_number_of_gridpoints d)).map idStr := by
        unfold fillMeshgrid at h2
        rw [fillMeshgridAux_keys (optionNames d) rows 0 _ runs h2]
        exact initial_meshgrid_keys _
      have hnd : (dkeys runs).Nodup := by
        rw [hkeys]
        exact List.Nodup.map idStr_injective (List.nodup_range _)
      -- the pop keys are exactly the keys of the excluded combinations
      unfold applyConditions
      rw [keysToPop_eq_filter_map conds runs hone]
      have hsub : ((runs.filter fun km => conds.any fun c => c km.2).map Prod.fst).Sublist
          (runs.map Prod.fst) := List.Sublist.map _ (List.filter_sublist runs)
      rw [popAll_ok _ runs hnd (List.Nodup.sublist hsub hnd) ?hask]
      case hask =>
        intro k hk
        rcases List.mem_map.mp hk with ⟨km, hkm, rfl⟩
        rw [hasKey_iff_mem_dkeys]
        exact List.mem_map.mpr ⟨km, List.mem_of_mem_filter hkm, rfl⟩
      congr 1
      apply List.filter_congr
      intro kv hkv
      have hiff : kv.1 ∈ (runs.filter fun km => conds.any fun c => c km.2).map Prod.fst ↔
          (conds.any fun c => c kv.2) = true := by
        constructor
        · intro hmem
          rcases List.mem_map.mp hmem with ⟨kv', hkv', hfst⟩
          have hkv'r := List.mem_of_mem_filter hkv'
          have hP := List.of_mem_filter hkv'
          have hv1 := dget_eq_some_of_mem_nodup runs kv.1 kv.2 hkv hnd
          have hv2 := dget_eq_some_of_mem_nodup runs kv'.1 kv'.2 hkv'r hnd
          rw [hfst, hv1] at hv2
          injection hv2 with hv2
          rw [hv2]
          exact hP
        · intro hP
          exact List.mem_map.mpr ⟨kv, List.mem_filter.mpr ⟨hkv, hP⟩, rfl⟩
      cases hany : conds.any fun c => c kv.2
      · have hnm : kv.1 ∉ (runs.filter fun km => conds.any fun c => c km.2).map Prod.fst := by
          intro hmem
          rw [hiff.mp hmem] at hany
          cases hany
        simp [hnm]
      · have hm := hiff.mpr hany
        simp [hm]

/-- C4 amended-claim witness: a single predicate excluding `x = 2` keeps
exactly runs `"0"` and `"2"` of the three-point grid. -/
theorem c4_witness :
    create_meshgrid_from_dict
        [("g", [("x", PyVal.list [PyScalar.int 1, PyScalar.int 2, PyScalar.int 3])])]
        [fun m => dget m "x" == some (PyVal.scalar (PyScalar.int 2))] =
      .ok (([("0", [("x", PyVal.scalar (PyScalar.int 1))]),
            ("1", [("x", PyVal.scalar (PyScalar.int 2))]),
            ("2", [("x", PyVal.scalar (PyScalar.int 3))])] : Meshgrid).filter
        fun km => !([fun m => dget m "x" == some (PyVal.scalar (PyScalar.int 2))].any
          fun c => c km.2)) :=
  c4_condition_filtering _ _ _ (by rfl) (by decide)

/-! ## Claim C3 (code bug): batch partition on gapped identifier sets -/

/-- C3: condition filtering (the pipeline's own feature) yields a run set with
a gap in its identifiers, and `split_grid` — which indexes
`Grid[f"{j}"]` for `j in np.arange(len(Grid))` — then raises `KeyError`
instead of assigning every present identifier a batch index. -/
theorem c3_split_grid_keyerror_on_gapped_grid :
    create_meshgrid_from_dict [("g", [("x", .list [.int 1, .int 2, .int 3])])]
        [fun m => dget m "x" == some (.scalar (.int 2))] =
      .ok [("0", [("x", .scalar (.int 1))]), ("2", [("x", .scalar (.int 3))])] ∧
    split_grid 1 [("0", [("x", .scalar (.int 1))]), ("2", [("x", .scalar (.int 3))])] =
      .error "KeyError: grid key not found" :=
  ⟨rfl, rfl⟩

/-! ### String-machinery lemmas for the round-trip proof -/

theorem benignKeyChar_spec (c : Char) (h : benignKeyChar c = true) :
    isPySpace c = false ∧ c ≠ '=' ∧ c ≠ '!' ∧ c ≠ '(' ∧ c ≠ '&' ∧ c ≠ '/' ∧
    c ≠ '\n' := by
  unfold benignKeyChar at h
  simp only [Bool.and_eq_true, bne_iff_ne, Bool.not_eq_true'] at h
  obtain ⟨⟨⟨⟨⟨h1, h2⟩, h3⟩, h4⟩, h5⟩, h6⟩ := h
  refine ⟨h1, h2, h3, h4, h5, h6, ?_⟩
  intro he
  rw [he] at h1
  exact absurd h1 (by decide)

theorem benignValueChar_spec (c : Char) (h : benignValueChar c = true) :
    c ≠ '\n' ∧ c ≠ '&' ∧ c ≠ '/' ∧ c ≠ '!' ∧ c ≠ '=' := by
  unfold benignValueChar at h
  simp only [Bool.and_eq_true, bne_iff_ne] at h
  obtain ⟨⟨⟨⟨h1, h2⟩, h3⟩, h4⟩, h5⟩ := h
  exact ⟨h1, h2, h3, h4, h5⟩

theorem mem_of_head?_eq_some {α : Type} {l : List α} {c : α}
    (h : l.head? = some c) : c ∈ l := by
  cases l with
  | nil => cases h
  | cons a t =>
    injection h with h
    rw [← h]
    exact List.mem_cons_self _ _

theorem mem_of_getLast?_eq_some {α : Type} {l : List α} {c : α}
    (h : l.getLast? = some c) : c ∈ l := by
  rw [← List.head?_reverse] at h
  exact List.mem_reverse.mp (mem_of_head?_eq_some h)

theorem splitChar_of_not_mem (c : Char) :
    ∀ l : List Char, c ∉ l → splitChar c l = [l] := by
  intro l
  induction l with
  | nil => intro _; rfl
  | cons a rest ih =>
    intro h
    have ha : ¬ a = c := fun he => h (he ▸ List.mem_cons_self a rest)
    unfold splitChar
    rw [if_neg ha, ih fun hm => h (List.mem_cons_of_mem _ hm)]

theorem splitChar_append_cons (c : Char) :
    ∀ (A B : List Char), c ∉ A → splitChar c (A ++ c :: B) = A :: splitChar c B := by
  intro A
  induction A with
  | nil =>
    intro B _
    show splitChar c (c :: B) = [] :: splitChar c B
    simp [splitChar]
  | cons a A ih =>
    intro B h
    have ha : ¬ a = c := fun he => h (he ▸ List.mem_cons_self a A)
    show splitChar c (a :: (A ++ c :: B)) = (a :: A) :: splitChar c B
    simp only [splitChar]
    rw [if_neg ha, ih B fun hm => h (List.mem_cons_of_mem _ hm)]

theorem joinChar_cons (c : Char) (l : List Char) (ls : List (List Char))
    (h : ls ≠ []) : joinChar c (l :: ls) = l ++ c :: joinChar c ls := by
  cases ls with
  | nil => exact absurd rfl h
  | cons l2 ls2 => rfl

theorem joinChar_append_single (c : Char) :
    ∀ (L : List (List Char)) (x : List Char), L ≠ [] →
      joinChar c (L ++ [x]) = joinChar c L ++ c :: x := by
  intro L
  induction L with
  | nil => intro x h; exact absurd rfl h
  | cons l L ih =>
    intro x _
    cases L with
    | nil => rfl
    | cons l2 L2 =>
      rw [List.cons_append, joinChar_cons c l ((l2 :: L2) ++ [x]) (by simp),
        ih x (by simp), joinChar_cons c l (l2 :: L2) (by simp)]
      simp

theorem mem_joinChar (c : Char) :
    ∀ (L : List (List Char)) (x : Char), x ∈ joinChar c L → x = c ∨ ∃ l ∈ L, x ∈ l := by
  intro L
  induction L with
  | nil => intro x h; cases h
  | cons l L ih =>
    intro x h
    cases L with
    | nil => exact Or.inr ⟨l, List.mem_cons_self _ _, h⟩
    | cons l2 L2 =>
      rw [joinChar_cons c l (l2 :: L2) (by simp)] at h
      rcases List.mem_append.mp h with h2 | h2
      · exact Or.inr ⟨l, List.mem_cons_self _ _, h2⟩
      · rcases List.mem_cons.mp h2 with h3 | h3
        · exact Or.inl h3
        · rcases ih x h3 with h4 | ⟨l3, hl3, hx⟩
          · exact Or.inl h4
          · exact Or.inr ⟨l3, List.mem_cons_of_mem _ hl3, hx⟩

theorem splitChar_joinChar_newlines (c : Char) :
    ∀ L : List (List Char), L ≠ [] → (∀ l ∈ L, c ∉ l) →
      splitChar c (joinChar c L ++ [c]) = L ++ [[]] := by
  intro L
  induction L with
  | nil => intro h _; exact absurd rfl h
  | cons l L ih =>
    intro _ h
    cases L with
    | nil =>
      show splitChar c (l ++ c :: []) = [l, []]
      rw [splitChar_append_cons c l [] (h l (List.mem_cons_self _ _))]
      rfl
    | cons l2 L2 =>
      rw [joinChar_cons c l (l2 :: L2) (by simp), List.append_assoc,
        List.cons_append, splitChar_append_cons c l _ (h l (List.mem_cons_self _ _)),
        ih (by simp) fun l' hl' => h l' (List.mem_cons_of_mem _ hl')]
      rfl

theorem dropWhile_eq_self_of_head (p : Char → Bool) (l : List Char)
    (h : ∀ x, l.head? = some x → p x = false) : l.dropWhile p = l := by
  cases l with
  | nil => rfl
  | cons a rest =>
    rw [List.dropWhile_cons_of_neg]
    rw [h a rfl]
    exact Bool.false_ne_true

theorem dropWhile_append_all (p : Char → Bool) :
    ∀ (sp t : List Char), (∀ x ∈ sp, p x = true) →
      (sp ++ t).dropWhile p = t.dropWhile p := by
  intro sp
  induction sp with
  | nil => intro t _; rfl
  | cons a sp ih =>
    intro t h
    rw [List.cons_append, List.dropWhile_cons_of_pos (h a (List.mem_cons_self _ _)),
      ih t fun x hx => h x (List.mem_cons_of_mem _ hx)]

theorem pstrip_sandwich (sp1 sp2 l : List Char)
    (hsp1 : ∀ x ∈ sp1, isPySpace x = true) (hsp2 : ∀ x ∈ sp2, isPySpace x = true)
    (hne : l ≠ [])
    (hh : ∀ x, l.head? = some x → isPySpace x = false)
    (hl : ∀ x, l.getLast? = some x → isPySpace x = false) :
    pstrip (sp1 ++ l ++ sp2) = l := by
  have h1 : (l ++ sp2).dropWhile isPySpace = l ++ sp2 := by
    apply dropWhile_eq_self_of_head
    intro x hx
    cases l with
    | nil => exact absurd rfl hne
    | cons a t =>
      rw [List.cons_append] at hx
      injection hx with hx
      exact hx ▸ hh a rfl
  have h2 : (l ++ sp2).reverse.dropWhile isPySpace = l.reverse := by
    rw [List.reverse_append, dropWhile_append_all _ sp2.reverse _
      (fun x hx => hsp2 x (List.mem_reverse.mp hx))]
    apply dropWhile_eq_self_of_head
    intro x hx
    rw [List.head?_reverse] at hx
    exact hl x hx
  unfold pstrip
  rw [List.append_assoc, dropWhile_append_all _ sp1 _ hsp1, h1, h2,
    List.reverse_reverse]

theorem pstrip_eq_self_of_benign (l : List Char) (hne : l ≠ [])
    (hh : ∀ x, l.head? = some x → isPySpace x = false)
    (hl : ∀ x, l.getLast? = some x → isPySpace x = false) : pstrip l = l := by
  have h := pstrip_sandwich [] [] l (by intro x hx; cases hx) (by intro x hx; cases hx)
    hne hh hl
  simpa using h

theorem splitLastChar_eq_none (c : Char) :
    ∀ l : List Char, c ∉ l → splitLastChar c l = none := by
  intro l
  induction l with
  | nil => intro _; rfl
  | cons a rest ih =>
    intro h
    have ha : ¬ a = c := fun he => h (he ▸ List.mem_cons_self a rest)
    unfold splitLastChar
    rw [ih fun hm => h (List.mem_cons_of_mem _ hm)]
    rw [if_neg ha]

theorem splitLastChar_append (c : Char) :
    ∀ (A B : List Char), c ∉ B → splitLastChar c (A ++ c :: B) = some (A, B) := by
  intro A
  induction A with
  | nil =>
    intro B h
    show splitLastChar c (c :: B) = some ([], B)
    unfold splitLastChar
    rw [splitLastChar_eq_none c B h, if_pos rfl]
  | cons a A ih =>
    intro B h
    show splitLastChar c (a :: (A ++ c :: B)) = some (a :: A, B)
    unfold splitLastChar
    rw [ih B h]

theorem findBlocksAux_no_amp :
    ∀ (fuel : Nat) (s : List Char), '&' ∉ s → findBlocksAux fuel s = [] := by
  intro fuel
  induction fuel with
  | zero => intro s _; rfl
  | succ fuel ih =>
    intro s h
    cases s with
    | nil => rfl
    | cons a rest =>
      have ha : ¬ a = '&' := fun he => h (he ▸ List.mem_cons_self a rest)
      simp only [findBlocksAux]
      rw [if_neg ha]
      exact ih rest fun hm => h (List.mem_cons_of_mem _ hm)

theorem findBlocks_single (A B : List Char) (hA : A ≠ []) (hampA : '&' ∉ A)
    (hampB : '&' ∉ B) (hslashB : '/' ∉ B) :
    findBlocks ('&' :: A ++ '/' :: B) = [A] := by
  have hamp : ∀ x ∈ A ++ '/' :: B, x ≠ '&' := by
    intro x hx
    rcases List.mem_append.mp hx with h | h
    · exact fun he => hampA (he ▸ h)
    · rcases List.mem_cons.mp h with h2 | h2
      · rw [h2]; decide
      · exact fun he => hampB (he ▸ h2)
  unfold findBlocks
  rw [List.cons_append, List.length_cons]
  simp only [findBlocksAux]
  rw [if_pos trivial]
  rw [List.takeWhile_eq_self_iff.mpr (by intro x hx; simpa using hamp x hx)]
  rw [List.dropWhile_eq_nil_iff.mpr (by intro x hx; simpa using hamp x hx)]
  rw [splitLastChar_append '/' A B hslashB]
  have hred : (if A = [] then findBlocksAux (A ++ '/' :: B).length (A ++ '/' :: B)
      else A :: findBlocksAux (A ++ '/' :: B).length (B ++ [])) = [A] := by
    rw [if_neg hA, List.append_nil, findBlocksAux_no_amp _ B hampB]
  exact hred

theorem findArrayKeysAux_no_paren :
    ∀ (fuel : Nat) (s : List Char), '(' ∉ s → findArrayKeysAux fuel s = [] := by
  intro fuel
  induction fuel with
  | zero => intro s _; rfl
  | succ fuel ih =>
    intro s h
    cases s with
    | nil => rfl
    | cons a rest =>
      have hsub : '(' ∉ (a :: rest).dropWhile isWordChar := by
        intro hm
        exact h ((List.dropWhile_sublist _).subset hm)
      simp only [findArrayKeysAux]
      cases hw : isWordChar a
      · rw [if_neg (by decide)]
        exact ih rest fun hm => h (List.mem_cons_of_mem _ hm)
      · rw [if_pos rfl]
        split
        · next r2 heq =>
            exact absurd (by rw [heq]; exact List.mem_cons_self '(' r2) hsub
        · next => exact ih _ hsub

theorem containsChar_eq_false (s : List Char) (c : Char) (h : c ∉ s) :
    containsChar s c = false := by
  unfold containsChar
  induction s with
  | nil => rfl
  | cons a rest ih =>
    have ha : ¬ a = c := fun he => h (he ▸ List.mem_cons_self a rest)
    rw [List.contains_cons]
    have h1 : (c == a) = false := by
      rw [beq_eq_false_iff_ne]
      exact fun he => ha he.symm
    rw [h1, Bool.false_or]
    exact ih fun hm => h (List.mem_cons_of_mem _ hm)

theorem ebindM_ok {ε α β : Type} (a : α) (f : α → Except ε β) :
    ((Except.ok a : Except ε α) >>= f) = f a := rfl

theorem parsePythonValueToFortran_scalar (s : PyScalar) :
    parsePythonValueToFortran (.scalar s) = .ok (scalarRender s) := by
  cases s <;> rfl

theorem valRender_scalar (s : PyScalar) :
    valRender (.scalar s) = scalarRender s := by
  unfold valRender
  rw [parsePythonValueToFortran_scalar]

theorem entryLines_scalar (ai : Bool) (k : String) (s : PyScalar) :
    entryLines ai k (.scalar s) =
      .ok ["   ".data ++ k.data ++ " = ".data ++ scalarRender s] := by
  have h : entryLines ai k (.scalar s) =
      (parsePythonValueToFortran (.scalar s)).bind fun r =>
        pure ["   ".data ++ k.data ++ " = ".data ++ r] := rfl
  rw [h, parsePythonValueToFortran_scalar, ebind_ok]
  rfl

theorem flatten_map_singleton {α β : Type} (l : List α) (f : α → β) :
    (l.map fun a => [f a]).flatten = l.map f := by
  induction l with
  | nil => rfl
  | cons a l ih => simp [ih]

theorem mapM_entryLines :
    ∀ data : PyDict String PyVal,
      (∀ kv ∈ data, ∃ s, kv.2 = PyVal.scalar s) →
      data.mapM (fun kv => entryLines false kv.1 kv.2) =
        .ok (data.map fun kv =>
          ["   ".data ++ kv.1.data ++ " = ".data ++ valRender kv.2]) := by
  intro data
  induction data with
  | nil => intro _; rfl
  | cons kv rest ih =>
    intro h
    obtain ⟨s, hs⟩ := h kv (List.mem_cons_self _ _)
    rw [List.mapM_cons]
    rw [show entryLines false kv.1 kv.2 =
        .ok ["   ".data ++ kv.1.data ++ " = ".data ++ valRender kv.2] from by
      rw [hs, valRender_scalar]
      exact entryLines_scalar false kv.1 s]
    rw [ebindM_ok, ih fun kv' h' => h kv' (List.mem_cons_of_mem _ h')]
    rfl

theorem dumpDictToNamelistString_scalars (data : PyDict String PyVal) (nl : String)
    (hnl : nl.data ≠ []) (hdata : data ≠ [])
    (h : ∀ kv ∈ data, ∃ s, kv.2 = PyVal.scalar s) :
    dumpDictToNamelistString data nl false =
      .ok (joinChar '\n' (('&' :: nl.data) ::
        ((data.map fun kv => "   ".data ++ kv.1.data ++ " = ".data ++ valRender kv.2) ++
          ["/ ! end of ".data ++ nl.data ++ " namelist".data])) ++ ['\n']) := by
  have hne' : nl ≠ "" := fun he => hnl (by rw [he])
  have h2 : dumpDictToNamelistString data nl false =
      (data.mapM fun kv => entryLines false kv.1 kv.2) >>= fun body =>
        pure (joinChar '\n' (('&' :: nl.data) ::
          (body.flatten ++ ["/ ! end of ".data ++ nl.data ++ " namelist".data])) ++
          ['\n']) := by
    unfold dumpDictToNamelistString
    rw [if_neg hne', if_neg hdata]
  rw [h2, mapM_entryLines data h, ebindM_ok, flatten_map_singleton]
  rfl

theorem processBlockLine_plain (group : PyDict String PyVal) (k : String)
    (r : List Char) (s : PyScalar) (hk : goodName k) (hr : goodRender r)
    (hparse : parseFortranValueToPython r = .ok s) :
    processBlockLine group (k.data ++ " = ".data ++ r) =
      .ok (dset group k (.scalar s)) := by
  obtain ⟨hk1, hk2⟩ := hk
  obtain ⟨hr1, hr2, hrh, hrl, hrc⟩ := hr
  have hkchars := fun c hc => benignKeyChar_spec c (hk2 c hc)
  have hrchars := fun c hc => benignValueChar_spec c (hr2 c hc)
  have hassoc : k.data ++ " = ".data ++ r = (k.data ++ [' ']) ++ '=' :: (' ' :: r) := by
    simp
  have hlast : (k.data ++ " = ".data ++ r).getLast? = r.getLast? := by
    rw [show k.data ++ " = ".data ++ r = (k.data ++ " = ".data) ++ r from by simp]
    exact List.getLast?_append_of_ne_nil _ hr1
  have hnobang : containsChar (k.data ++ " = ".data ++ r) '!' = false := by
    apply containsChar_eq_false
    intro hm
    rcases List.mem_append.mp hm with hm | hm
    · rcases List.mem_append.mp hm with hm | hm
      · exact (hkchars _ hm).2.2.1 rfl
      · exact absurd hm (by decide)
    · exact (hrchars _ hm).2.2.2.1 rfl
  have hsplit : splitChar '=' (k.data ++ " = ".data ++ r) =
      [k.data ++ [' '], ' ' :: r] := by
    rw [hassoc, splitChar_append_cons '=' _ _ ?h1, splitChar_of_not_mem '=' _ ?h2]
    case h1 =>
      intro hm
      rcases List.mem_append.mp hm with hm | hm
      · exact (hkchars _ hm).2.1 rfl
      · exact absurd hm (by decide)
    case h2 =>
      intro hm
      rcases List.mem_cons.mp hm with hm | hm
      · exact absurd hm (by decide)
      · exact (hrchars _ hm).2.2.2.2 rfl
  have hps1 : pstrip (k.data ++ [' ']) = k.data := by
    have hs := pstrip_sandwich [] [' '] k.data (by intro x hx; cases hx)
      (by intro x hx; rcases List.mem_singleton.mp hx with rfl; rfl) hk1
      (fun x hx => (hkchars x (mem_of_head?_eq_some hx)).1)
      (fun x hx => (hkchars x (mem_of_getLast?_eq_some hx)).1)
    simpa using hs
  have hps2 : pstrip (' ' :: r) = r := by
    have hs := pstrip_sandwich [' '] [] r
      (by intro x hx; rcases List.mem_singleton.mp hx with rfl; rfl)
      (by intro x hx; cases hx) hr1 hrh hrl
    simpa using hs
  have hak : findArrayKeys (k.data ++ [' ']) = [] := by
    apply findArrayKeysAux_no_paren
    intro hm
    rcases List.mem_append.mp hm with hm | hm
    · exact (hkchars _ hm).2.2.2.1 rfl
    · exact absurd hm (by decide)
  have hred : processBlockLine group (k.data ++ " = ".data ++ r) =
      processAssignment group
        (match findArrayKeys (k.data ++ [' ']) with
         | [(nm, digits)] => (String.mk nm, some ((digitsToNat digits : Int) - 1))
         | _ => (String.mk (pstrip (k.data ++ [' '])), (none : Option Int))).1
        (match findArrayKeys (k.data ++ [' ']) with
         | [(nm, digits)] => (String.mk nm, some ((digitsToNat digits : Int) - 1))
         | _ => (String.mk (pstrip (k.data ++ [' '])), (none : Option Int))).2
        (pstrip (' ' :: r)) := by
    simp only [processBlockLine]
    rw [hlast, if_neg hrc, hnobang, if_neg (by decide), hsplit]
  rw [hred, hak]
  have hfin : processAssignment group (String.mk (pstrip (k.data ++ [' ']))) none
      (pstrip (' ' :: r)) = .ok (dset group k (.scalar s)) := by
    rw [hps1, hps2]
    unfold processAssignment
    rw [hparse]
    rfl
  exact hfin

theorem foldlM_ok_of_step {σ α : Type} (f : σ → α → Except PErr σ) (g : σ → α → σ) :
    ∀ (ls : List α) (acc : σ), (∀ acc' l, l ∈ ls → f acc' l = .ok (g acc' l)) →
      ls.foldlM f acc = .ok (ls.foldl g acc) := by
  intro ls
  induction ls with
  | nil => intro acc _; rfl
  | cons l ls ih =>
    intro acc h
    rw [List.foldlM_cons, h acc l (List.mem_cons_self _ _), ebindM_ok,
      List.foldl_cons]
    exact ih (g acc l) fun acc' l' hl' => h acc' l' (List.mem_cons_of_mem _ hl')

theorem foldl_append_map {α β : Type} (h : α → β) :
    ∀ (ls : List α) (acc : List β),
      ls.foldl (fun a l => a ++ [h l]) acc = acc ++ ls.map h := by
  intro ls
  induction ls with
  | nil => intro acc; simp
  | cons l ls ih =>
    intro acc
    rw [List.foldl_cons, ih, List.map_cons]
    simp

theorem buildBlockLines_good (lines : List (List Char))
    (h : ∀ l ∈ lines, pstrip l ≠ [] ∧ ¬ ((pstrip l).head? = some '!') ∧
      (splitChar '=' (pstrip l)).length = 2) :
    buildBlockLines (lines ++ [[]]) = .ok (lines.map pstrip) := by
  unfold buildBlockLines
  rw [List.foldlM_append]
  rw [foldlM_ok_of_step _ (fun acc l => acc ++ [pstrip l]) lines [] ?hstep]
  case hstep =>
    intro acc' l hl
    obtain ⟨h1, h2, h3⟩ := h l hl
    show (if pstrip l = [] then pure acc'
      else if (pstrip l).head? = some '!' then pure acc'
      else if (splitChar '=' (pstrip l)).length = 2 then pure (acc' ++ [pstrip l])
      else match acc'.getLast? with
        | none => Except.error (PErr.fatal "IndexError: list index out of range")
        | some last =>
          if last.getLast? = some ','
          then pure (acc'.dropLast ++ [last ++ pstrip l])
          else Except.error (PErr.fatal "ValueError: not enough values to unpack")) =
      Except.ok (acc' ++ [pstrip l])
    rw [if_neg h1, if_neg h2, if_pos h3]
    rfl
  rw [ebindM_ok, foldl_append_map]
  rfl

theorem foldlM_processBlockLine_plain :
    ∀ (es : PyDict String PyVal) (group : PyDict String PyVal),
      (∀ kv ∈ es, goodName kv.1) →
      (∀ kv ∈ es, ∃ s, kv.2 = PyVal.scalar s ∧ goodRender (scalarRender s) ∧
        parseFortranValueToPython (scalarRender s) = .ok s) →
      (es.map fun kv => kv.1.data ++ " = ".data ++ valRender kv.2).foldlM
          processBlockLine group =
        .ok (es.foldl (fun g kv => dset g kv.1 kv.2) group) := by
  intro es
  induction es with
  | nil => intro group _ _; rfl
  | cons kv rest ih =>
    intro group hk hs
    obtain ⟨s, hv, hgr, hrt⟩ := hs kv (List.mem_cons_self _ _)
    rw [List.map_cons, List.foldlM_cons]
    have hline : processBlockLine group (kv.1.data ++ " = ".data ++ valRender kv.2) =
        .ok (dset group kv.1 kv.2) := by
      rw [hv, valRender_scalar]
      exact processBlockLine_plain group kv.1 (scalarRender s) s
        (hk kv (List.mem_cons_self _ _)) hgr hrt
    rw [hline, ebindM_ok, List.foldl_cons]
    exact ih (dset group kv.1 kv.2)
      (fun kv' h' => hk kv' (List.mem_cons_of_mem _ h'))
      (fun kv' h' => hs kv' (List.mem_cons_of_mem _ h'))

theorem processGroupBlock_cons (gb nameLine : List Char) (rest : List (List Char))
    (h : splitChar '\n' gb = nameLine :: rest) :
    processGroupBlock gb =
      (buildBlockLines rest).bind fun blockLines =>
        (blockLines.foldlM processBlockLine []).bind fun group =>
          .ok (if dhasKey group (String.mk (pstrip nameLine))
               then String.mk (pstrip nameLine) ++ "0"
               else String.mk (pstrip nameLine), group) := by
  unfold processGroupBlock
  rw [h]
  rfl

theorem namelistStringToDict_single (buffer gb : List Char) (tl : List (List Char))
    (hne : buffer ≠ []) (h : groupBlocksOf buffer = gb :: tl) :
    namelistStringToDict buffer =
      (processGroupBlock gb).map fun ng => [ng] := by
  unfold namelistStringToDict
  rw [if_neg hne, h]

theorem head?_append_left {α : Type} (A B : List α) (h : A ≠ []) :
    (A ++ B).head? = A.head? := by
  cases A with
  | nil => exact absurd rfl h
  | cons a t => rfl

theorem line_facts (k : String) (r : List Char) (hk : goodName k) (hr : goodRender r) :
    pstrip ("   ".data ++ k.data ++ " = ".data ++ r) = k.data ++ " = ".data ++ r ∧
    splitChar '=' (k.data ++ " = ".data ++ r) = [k.data ++ [' '], ' ' :: r] ∧
    k.data ++ " = ".data ++ r ≠ [] ∧
    (∀ x, (k.data ++ " = ".data ++ r).head? = some x → benignKeyChar x = true) := by
  obtain ⟨hk1, hk2⟩ := hk
  obtain ⟨hr1, hr2, hrh, hrl, hrc⟩ := hr
  have hkchars := fun c hc => benignKeyChar_spec c (hk2 c hc)
  have hrchars := fun c hc => benignValueChar_spec c (hr2 c hc)
  have hheadX : ∀ x, (k.data ++ " = ".data ++ r).head? = some x →
      benignKeyChar x = true := by
    intro x hx
    rw [head?_append_left _ _ (by
        intro he
        exact hk1 (List.append_eq_nil.mp he).1),
      head?_append_left _ _ hk1] at hx
    exact hk2 x (mem_of_head?_eq_some hx)
  have hLne : k.data ++ " = ".data ++ r ≠ [] := by
    intro he
    have h1 := (List.append_eq_nil.mp he).1
    have h2 := (List.append_eq_nil.mp h1).2
    exact absurd h2 (by decide)
  refine ⟨?_, ?_, hLne, hheadX⟩
  · have hs := pstrip_sandwich "   ".data [] (k.data ++ " = ".data ++ r)
      (by decide) (by intro x hx; cases hx) hLne
      (fun x hx => (benignKeyChar_spec x (hheadX x hx)).1)
      (by
        intro x hx
        rw [List.getLast?_append_of_ne_nil _ hr1] at hx
        exact hrl x hx)
    simpa using hs
  · have hassoc : k.data ++ " = ".data ++ r = (k.data ++ [' ']) ++ '=' :: (' ' :: r) := by
      simp
    rw [hassoc, splitChar_append_cons '=' _ _ ?h1, splitChar_of_not_mem '=' _ ?h2]
    case h1 =>
      intro hm
      rcases List.mem_append.mp hm with hm | hm
      · exact (hkchars _ hm).2.1 rfl
      · exact absurd hm (by decide)
    case h2 =>
      intro hm
      rcases List.mem_cons.mp hm with hm | hm
      · exact absurd hm (by decide)
      · exact (hrchars _ hm).2.2.2.2 rfl

/-! ## Claim C2 (corrected): parse after serialize -/

/-- C2 (amended): parse-after-serialize is the identity on nonempty
scalar-valued mappings whose keys and group name are made of delimiter-free
characters, whose keys are distinct and distinct from the group name, and
whose rendered values are benign and parse back to the original scalar.
Indexed-array entries cannot even be serialized — see the counterexample. -/
theorem c2_roundtrip_scalar_mappings (nl : String) (data : PyDict String PyVal)
    (hnl : goodName nl) (hdata : data ≠ []) (hnodup : (dkeys data).Nodup)
    (hnlkey : dhasKey data nl = false)
    (hkeys : ∀ kv ∈ data, goodName kv.1)
    (hscal : ∀ kv ∈ data, ∃ s, kv.2 = PyVal.scalar s ∧ goodRender (scalarRender s) ∧
      parseFortranValueToPython (scalarRender s) = .ok s) :
    (dumpDictToNamelistString data nl false).map namelistStringToDict =
      .ok (.ok [(nl, data)]) := by
  obtain ⟨hnl1, hnl2⟩ := hnl
  have hnlchars := fun c hc => benignKeyChar_spec c (hnl2 c hc)
  have hs0 : ∀ kv ∈ data, ∃ s, kv.2 = PyVal.scalar s := by
    intro kv h
    obtain ⟨s, h1, _, _⟩ := hscal kv h
    exact ⟨s, h1⟩
  have hgoodr : ∀ kv ∈ data, goodRender (valRender kv.2) := by
    intro kv h
    obtain ⟨s, h1, h2, _⟩ := hscal kv h
    rw [h1, valRender_scalar]
    exact h2
  have hlf := fun kv h => line_facts kv.1 (valRender kv.2) (hkeys kv h) (hgoodr kv h)
  rw [dumpDictToNamelistString_scalars data nl hnl1 hdata hs0, emap_ok]
  set bodyLines := data.map fun kv =>
    "   ".data ++ kv.1.data ++ " = ".data ++ valRender kv.2 with hbodyLines
  set closeLine := "/ ! end of ".data ++ nl.data ++ " namelist".data with hcloseLine
  have hbodyne : bodyLines ≠ [] := by
    rw [hbodyLines]
    intro he
    exact hdata (List.map_eq_nil.mp he)
  have hlinechar : ∀ l ∈ bodyLines, ∀ c ∈ l, c ≠ '\n' ∧ c ≠ '&' ∧ c ≠ '/' := by
    rw [hbodyLines]
    intro l hl c hc
    rcases List.mem_map.mp hl with ⟨kv, hkv, rfl⟩
    obtain ⟨s, hv, hgr, _⟩ := hscal kv hkv
    have hvr : valRender kv.2 = scalarRender s := by rw [hv, valRender_scalar]
    rcases List.mem_append.mp hc with hc | hc
    · rcases List.mem_append.mp hc with hc | hc
      · rcases List.mem_append.mp hc with hc | hc
        · have hcs : c = ' ' := by simpa using hc
          subst hcs
          exact ⟨by decide, by decide, by decide⟩
        · have hb := benignKeyChar_spec c ((hkeys kv hkv).2 c hc)
          exact ⟨hb.2.2.2.2.2.2, hb.2.2.2.2.1, hb.2.2.2.2.2.1⟩
      · have hcs : c = ' ' ∨ c = '=' ∨ c = ' ' := by simpa using hc
        rcases hcs with rfl | rfl | rfl <;> exact ⟨by decide, by decide, by decide⟩
    · rw [hvr] at hc
      have hb := benignValueChar_spec c (hgr.2.1 c hc)
      exact ⟨hb.1, hb.2.1, hb.2.2.1⟩
  have hnolf : ∀ l ∈ ('&' :: nl.data) :: (bodyLines ++ [closeLine]), '\n' ∉ l := by
    intro l hl
    rcases List.mem_cons.mp hl with rfl | hl
    · intro hm
      rcases List.mem_cons.mp hm with h | h
      · exact absurd h (by decide)
      · exact (hnlchars _ h).2.2.2.2.2.2 rfl
    · rcases List.mem_append.mp hl with hl | hl
      · intro hm
        exact (hlinechar l hl _ hm).1 rfl
      · rcases List.mem_singleton.mp hl with rfl
        rw [hcloseLine]
        intro hm
        rcases List.mem_append.mp hm with hm | hm
        · rcases List.mem_append.mp hm with hm | hm
          · exact absurd hm (by decide)
          · exact (hnlchars _ hm).2.2.2.2.2.2 rfl
        · exact absurd hm (by decide)
  set A := nl.data ++ '\n' :: (joinChar '\n' bodyLines ++ ['\n']) with hA
  set B := (" ! end of ".data ++ nl.data ++ " namelist".data) ++ ['\n'] with hB
  have hampA : '&' ∉ A := by
    rw [hA]
    intro hm
    rcases List.mem_append.mp hm with hm | hm
    · exact (hnlchars _ hm).2.2.2.2.1 rfl
    · rcases List.mem_cons.mp hm with hm | hm
      · exact absurd hm (by decide)
      · rcases List.mem_append.mp hm with hm | hm
        · rcases mem_joinChar '\n' bodyLines '&' hm with h | ⟨l, hl, hc⟩
          · exact absurd h (by decide)
          · exact (hlinechar l hl _ hc).2.1 rfl
        · exact absurd (List.mem_singleton.mp hm) (by decide)
  have hampB : '&' ∉ B := by
    rw [hB]
    intro hm
    rcases List.mem_append.mp hm with hm | hm
    · rcases List.mem_append.mp hm with hm | hm
      · rcases List.mem_append.mp hm with hm | hm
        · exact absurd hm (by decide)
        · exact (hnlchars _ hm).2.2.2.2.1 rfl
      · exact absurd hm (by decide)
    · exact absurd (List.mem_singleton.mp hm) (by decide)
  have hslashB : '/' ∉ B := by
    rw [hB]
    intro hm
    rcases List.mem_append.mp hm with hm | hm
    · rcases List.mem_append.mp hm with hm | hm
      · rcases List.mem_append.mp hm with hm | hm
        · exact absurd hm (by decide)
        · exact (hnlchars _ hm).2.2.2.2.2.1 rfl
      · exact absurd hm (by decide)
    · exact absurd (List.mem_singleton.mp hm) (by decide)
  have hAne : A ≠ [] := by
    rw [hA]
    simp
  have hclosecons : "/ ! end of ".data = '/' :: " ! end of ".data := rfl
  have htext : joinChar '\n' (('&' :: nl.data) :: (bodyLines ++ [closeLine])) ++ ['\n'] =
      '&' :: A ++ '/' :: B := by
    rw [joinChar_cons _ _ _ (by simp), joinChar_append_single _ _ _ hbodyne, hA, hB,
      hcloseLine, hclosecons]
    simp
  have hkeep : ∀ l ∈ (('&' :: nl.data) :: (bodyLines ++ [closeLine])) ++ [[]],
      ¬ ((pstrip l).head? = some '!') := by
    intro l hl
    rcases List.mem_append.mp hl with hl | hl
    · rcases List.mem_cons.mp hl with rfl | hl
      · intro hcon
        rw [pstrip_eq_self_of_benign _ (by simp)
          (by
            intro x hx
            injection hx with hx
            rw [← hx]
            decide)
          (by
            intro x hx
            rw [show ('&' :: nl.data) = ['&'] ++ nl.data from rfl,
              List.getLast?_append_of_ne_nil _ hnl1] at hx
            exact (hnlchars x (mem_of_getLast?_eq_some hx)).1)] at hcon
        injection hcon with hcon
        exact absurd hcon (by decide)
      · rcases List.mem_append.mp hl with hl | hl
        · rw [hbodyLines] at hl
          rcases List.mem_map.mp hl with ⟨kv, hkv, rfl⟩
          obtain ⟨hps, hsp, hne2, hhead⟩ := hlf kv hkv
          intro hcon
          rw [hps] at hcon
          exact absurd rfl (benignKeyChar_spec '!' (hhead '!' hcon)).2.2.1
        · rcases List.mem_singleton.mp hl with rfl
          rw [hcloseLine]
          intro hcon
          rw [pstrip_eq_self_of_benign _ (by simp)
            (by
              intro x hx
              rw [head?_append_left _ _ (by
                  rw [hclosecons]
                  simp),
                head?_append_left _ _ (by rw [hclosecons]; simp), hclosecons] at hx
              injection hx with hx
              rw [← hx]
              decide)
            (by
              intro x hx
              rw [List.getLast?_append_of_ne_nil _ (by decide)] at hx
              rw [show " namelist".data.getLast? = some 't' from rfl] at hx
              injection hx with hx
              rw [← hx]
              decide)] at hcon
          rw [head?_append_left _ _ (by rw [hclosecons]; simp),
            head?_append_left _ _ (by rw [hclosecons]; simp), hclosecons] at hcon
          exact absurd hcon (by decide)
    · rcases List.mem_singleton.mp hl with rfl
      intro hcon
      cases hcon
  have hgb : groupBlocksOf
      (joinChar '\n' (('&' :: nl.data) :: (bodyLines ++ [closeLine])) ++ ['\n']) = [A] := by
    unfold groupBlocksOf
    rw [splitChar_joinChar_newlines '\n' _ (by simp) hnolf,
      List.filter_eq_self.mpr (fun a ha => decide_eq_true (hkeep a ha)),
      joinChar_append_single '\n' _ [] (by simp), htext]
    exact findBlocks_single A B hAne hampA hampB hslashB
  rw [namelistStringToDict_single _ A [] (by simp) hgb]
  have hnamesplit : splitChar '\n' A = nl.data :: (bodyLines ++ [[]]) := by
    rw [hA]
    rw [show nl.data ++ '\n' :: (joinChar '\n' bodyLines ++ ['\n']) =
        joinChar '\n' (nl.data :: bodyLines) ++ ['\n'] from by
      rw [joinChar_cons _ _ _ hbodyne]
      simp]
    rw [splitChar_joinChar_newlines '\n' _ (by simp) (by
      intro l hl
      rcases List.mem_cons.mp hl with rfl | hl
      · intro hm
        exact (hnlchars _ hm).2.2.2.2.2.2 rfl
      · intro hm
        exact (hlinechar l hl _ hm).1 rfl)]
    rfl
  rw [processGroupBlock_cons A nl.data (bodyLines ++ [[]]) hnamesplit]
  have hgood : ∀ l ∈ bodyLines, pstrip l ≠ [] ∧ ¬ ((pstrip l).head? = some '!') ∧
      (splitChar '=' (pstrip l)).length = 2 := by
    intro l hl
    rw [hbodyLines] at hl
    rcases List.mem_map.mp hl with ⟨kv, hkv, rfl⟩
    obtain ⟨hps, hsp, hne2, hhead⟩ := hlf kv hkv
    refine ⟨?_, ?_, ?_⟩
    · rw [hps]
      exact hne2
    · rw [hps]
      intro hcon
      exact absurd rfl (benignKeyChar_spec '!' (hhead '!' hcon)).2.2.1
    · rw [hps, hsp]
      rfl
  rw [buildBlockLines_good bodyLines hgood, ebind_ok]
  have hmapstrip : bodyLines.map pstrip =
      data.map fun kv => kv.1.data ++ " = ".data ++ valRender kv.2 := by
    rw [hbodyLines, List.map_map]
    exact map_congr_mem _ _ data fun kv hkv => (hlf kv hkv).1
  rw [hmapstrip, foldlM_processBlockLine_plain data [] hkeys hscal, ebind_ok]
  have hfold : data.foldl (fun g kv => dset g kv.1 kv.2) [] = data := by
    have h := foldl_dset_eq_append data [] hnodup fun k _ => rfl
    simpa using h
  rw [hfold]
  have hnlstrip : String.mk (pstrip nl.data) = nl := by
    rw [pstrip_eq_self_of_benign nl.data hnl1
      (fun x hx => (hnlchars x (mem_of_head?_eq_some hx)).1)
      (fun x hx => (hnlchars x (mem_of_getLast?_eq_some hx)).1)]
  rw [hnlstrip, hnlkey, if_neg (by decide)]
  rfl

/-- C2 amended-claim witness: a two-entry all-scalar mapping under group
`controls` serializes and parses back to itself exactly. -/
theorem c2_witness :
    (dumpDictToNamelistString
        [("alpha", PyVal.scalar (PyScalar.int 2)),
         ("flag", PyVal.scalar (PyScalar.bool true))] "controls" false).map
      namelistStringToDict =
      .ok (.ok [("controls",
        [("alpha", PyVal.scalar (PyScalar.int 2)),
         ("flag", PyVal.scalar (PyScalar.bool true))])]) :=
  c2_roundtrip_scalar_mappings "controls" _ ⟨by decide, by decide⟩ (by decide)
    (by decide) (by decide)
    (by
      intro kv hkv
      rcases List.mem_cons.mp hkv with rfl | hkv
      · exact ⟨by decide, by decide⟩
      · rcases List.mem_cons.mp hkv with rfl | hkv
        · exact ⟨by decide, by decide⟩
        · cases hkv)
    (by
      intro kv hkv
      rcases List.mem_cons.mp hkv with rfl | hkv
      · refine ⟨PyScalar.int 2, rfl,
          ⟨by decide, by decide, fun c hc => by cases hc; decide,
           fun c hc => by cases hc; decide, by decide⟩, by decide⟩
      · rcases List.mem_cons.mp hkv with rfl | hkv
        · refine ⟨PyScalar.bool true, rfl,
            ⟨by decide, by decide, fun c hc => by cases hc; decide,
             fun c hc => by cases hc; decide, by decide⟩, by decide⟩
        · cases hkv)

/-- C2 counterexample: a mapping holding an indexed-array entry (the parser's
own representation of arrays) cannot even be serialized — the serializer's
type dispatch reaches the `else: raise` branch on a Python `dict` — so parse
after serialize is not the identity on indexed-array entries. -/
theorem c2_counterexample :
    dumpDictToNamelistString [("a", .ilist [(0, .int 1), (1, .int 2)])] "nl" false =
      .error "Exception: Variable type not understood" :=
  rfl

end Stevma
